import Mathlib

/-!
# Server archiver (`server/archiver.go`)

A shallow embedding of the `Archiver` type of the wings daemon and of the
standard-library routines it calls (`path/filepath`, `crypto/sha256`,
`encoding/hex`, `io.CopyBuffer`), followed by the properties of the archive
lifecycle.

Go strings are modelled by `String`; the characters that matter to the code
(`/` and `.`) are ASCII, so byte-wise and character-wise processing agree.
-/

namespace filepath

/-- The path separator `os.PathSeparator` on the platforms wings runs on. -/
def Separator : Char := '/'

/-- `os.IsPathSeparator`. -/
def IsPathSeparator (c : Char) : Bool := c == Separator

/-- The backtracking loop of `Clean` for a `..` element:
`out.w--; for out.w > dotdot && !os.IsPathSeparator(out.index(out.w)) { out.w-- }`.
The argument is the write index before the first decrement, the result the
write index afterwards. -/
def backtrack (buf : List Char) (dotdot : Nat) : Nat → Nat
  | 0 => 0
  | w + 1 =>
    if w > dotdot && !IsPathSeparator (buf.getD w Separator) then backtrack buf dotdot w
    else w

/-- The main loop of `Clean` (`for r < n { switch ... }`). `path` is the part
of the input not yet read (`path[r:]`), `out` the contents of the output
buffer (`out.w` is its length), `dotdot` the index where `..` must stop.
Every iteration reads at least one byte, so a fuel of `len(path)` is enough. -/
def cleanLoop (rooted : Bool) : Nat → List Char → List Char → Nat → List Char
  | 0, _, out, _ => out
  | fuel + 1, path, out, dotdot =>
    match path with
    | [] => out
    | c :: rest =>
      if IsPathSeparator c then
        -- empty path element
        cleanLoop rooted fuel rest out dotdot
      else if c == '.' && (rest.isEmpty || IsPathSeparator (rest.headD Separator)) then
        -- . element
        cleanLoop rooted fuel rest out dotdot
      else if c == '.' && rest.headD Separator == '.' &&
          (rest.tail.isEmpty || IsPathSeparator (rest.tail.headD Separator)) then
        -- .. element: remove to last separator
        if out.length > dotdot then
          -- can backtrack
          cleanLoop rooted fuel rest.tail (out.take (backtrack out dotdot out.length)) dotdot
        else if !rooted then
          -- cannot backtrack, but not rooted, so append .. element.
          let out1 := if out.length > 0 then out ++ [Separator] else out
          let out2 := out1 ++ ['.', '.']
          cleanLoop rooted fuel rest.tail out2 out2.length
        else
          cleanLoop rooted fuel rest.tail out dotdot
      else
        -- real path element. add slash if needed
        let out1 :=
          if (rooted && out.length != 1) || (!rooted && out.length != 0) then out ++ [Separator]
          else out
        -- copy element
        let elem := path.takeWhile (fun x => !IsPathSeparator x)
        cleanLoop rooted fuel (path.dropWhile (fun x => !IsPathSeparator x)) (out1 ++ elem) dotdot

/-- `filepath.Clean` on a byte list (no volume names on Unix). -/
def cleanChars (path : List Char) : List Char :=
  match path with
  | [] => ['.']
  | c :: _ =>
    let rooted := IsPathSeparator c
    let out := if rooted then cleanLoop true path.length path.tail [Separator] 1
               else cleanLoop false path.length path [] 0
    -- Turn empty string into "."
    if out.length == 0 then ['.'] else out

/-- `filepath.Clean`. -/
def Clean (path : String) : String := ⟨cleanChars path.data⟩

/-- `filepath.Join` for two elements: empty elements are ignored, the rest is
joined with the separator and cleaned. -/
def Join (a b : String) : String :=
  if a != "" then Clean (a ++ "/" ++ b)
  else if b != "" then Clean b
  else ""

end filepath


namespace syscall

/-- The error numbers of `syscall.Errno` that file operations report. -/
inductive Errno
  | ENOENT | EACCES | EPERM | EEXIST | ENOTDIR | EISDIR | ENOTEMPTY | EIO | ENOSPC | EMFILE
  deriving DecidableEq, Repr

end syscall

/-- Go `error` values (the non-nil ones; `nil` is `none` of `Option error`). -/
inductive error
  /-- a bare `syscall.Errno` -/
  | Errno (e : syscall.Errno)
  /-- the sentinel `os.ErrNotExist` -/
  | ErrNotExist
  /-- `*os.PathError{Op, Path, Err}` -/
  | PathError (Op Path : String) (Err : error)
  /-- the sentinel `io.EOF` -/
  | EOF
  /-- an error made by `errors.New` or `fmt.Errorf` -/
  | New (text : String)
  deriving DecidableEq, Repr

namespace os

/-- `os.underlyingError`: unwraps one `*PathError`. -/
def underlyingError : error → error
  | .PathError _ _ err => err
  | err => err

/-- `os.IsNotExist`: false for `nil`, true when the underlying error is
`ErrNotExist` or the error number `ENOENT`. -/
def IsNotExist : Option error → Bool
  | none => false
  | some err =>
    match underlyingError err with
    | .ErrNotExist => true
    | .Errno .ENOENT => true
    | _ => false

/-- The part of `os.FileInfo` the archiver's collaborators look at. -/
structure FileInfo where
  Name : String
  Size : Nat
  IsDir : Bool
  IsSymlink : Bool
  deriving DecidableEq, Repr

/-- An open `*os.File` as seen by its reader: the bytes not yet read, the
sizes the operating system forces on the coming reads (short reads; none when
the list is empty), and the error that the read after the last byte reports in
place of `io.EOF`, if any. -/
structure File where
  name : String
  data : List Nat
  short : List Nat
  fault : Option error
  deriving DecidableEq, Repr

/-- `(*os.File).Read` with a buffer of `n` bytes: `(bytes read, err, file)`.
A read returns at least one byte while bytes remain, and `0, io.EOF` (or the
read fault) at the end. -/
def File.Read (f : File) (n : Nat) : List Nat × Option error × File :=
  if n = 0 then ([], none, f)
  else
    match f.data with
    | [] => ([], some (f.fault.getD .EOF), f)
    | _ :: _ =>
      let k := max 1 (min n (f.short.headD n))
      (f.data.take k, none, { f with data := f.data.drop k, short := f.short.tail })

end os

/-- The wings `Stat` record returned by the metadata provider. -/
structure Stat where
  Info : os.FileInfo
  Mimetype : String
  deriving DecidableEq, Repr

/-- The capabilities the archiver consumes, over a filesystem state `σ`:
the process configuration, the operating system calls, the two `Filesystem`
helpers of the server (`SafeJoin`, `unsafeStat`) and the compression
capability `archiver.NewTarGz().Archive`. Calls that only read return a
result; calls that write return the new state as well. -/
structure Env (σ : Type) where
  /-- `config.Get().System.ArchiveDirectory` -/
  ArchiveDirectory : String
  /-- `(*Filesystem).unsafeStat`; the `*Stat` it returns is non-nil exactly
  when the error is nil -/
  unsafeStat : String → σ → Except error Stat
  /-- `os.Stat` -/
  Stat : String → σ → Except error os.FileInfo
  /-- `ioutil.ReadDir` -/
  ReadDir : String → σ → Except error (List os.FileInfo)
  /-- `os.Open` -/
  Open : String → σ → Except error os.File
  /-- `os.Remove` -/
  Remove : String → σ → Option error × σ
  /-- `(*Filesystem).SafeJoin` -/
  SafeJoin : String → os.FileInfo → σ → Except error String
  /-- `archiver.NewTarGz().Archive` -/
  TarGzArchive : List String → String → σ → Option error × σ

/-- A call made to a capability. -/
inductive Call
  | Stat (path : String)
  | ReadDir (path : String)
  | Open (path : String)
  | Close (path : String)
  | Remove (path : String)
  | SafeJoin (dir : String) (file : os.FileInfo)
  | unsafeStat (path : String)
  | TarGzArchive (files : List String) (destination : String)
  deriving DecidableEq, Repr

/-- The state a method runs in: the filesystem and the capability calls made
so far, oldest first. -/
structure World (σ : Type) where
  fs : σ
  calls : List Call

/-- Notes a capability call. -/
def World.record {σ : Type} (w : World σ) (c : Call) : World σ :=
  { w with calls := w.calls ++ [c] }

/-- The `error` half of a Go `(value, error)` result. -/
def errOf {α : Type} : Except error α → Option error
  | .error err => some err
  | .ok _ => none

/-- The `Filesystem` of a server: its data directory. -/
structure Filesystem where
  Path : String
  deriving DecidableEq, Repr

/-- The part of `Server` the archiver uses. -/
structure Server where
  Id : String
  Filesystem : Filesystem
  deriving DecidableEq, Repr

/-- Archiver represents a Server Archiver. -/
structure Archiver where
  Server : Server
  deriving DecidableEq, Repr

/-- ArchiveName returns the name of the server's archive. -/
def Archiver.ArchiveName (a : Archiver) : String :=
  a.Server.Id ++ ".tar.gz"

/-- ArchivePath returns the path to the server's archive. -/
def Archiver.ArchivePath {σ : Type} (env : Env σ) (a : Archiver) : String :=
  filepath.Join env.ArchiveDirectory a.ArchiveName

/-- Exists returns a boolean based off if the archive exists. -/
def Archiver.Exists {σ : Type} (env : Env σ) (a : Archiver) (w : World σ) : Bool × World σ :=
  let err := errOf (env.Stat (a.ArchivePath env) w.fs)
  let w1 := w.record (.Stat (a.ArchivePath env))
  if os.IsNotExist err then (false, w1)
  else (true, w1)

/-- Stat stats the archive file. -/
def Archiver.Stat {σ : Type} (env : Env σ) (a : Archiver) (w : World σ) :
    Except error Stat × World σ :=
  (env.unsafeStat (a.ArchivePath env) w.fs, w.record (.unsafeStat (a.ArchivePath env)))

/-- The call `os.Remove(path)` in a world. -/
def World.Remove {σ : Type} (env : Env σ) (path : String) (w : World σ) :
    Option error × World σ :=
  ((env.Remove path w.fs).1, { fs := (env.Remove path w.fs).2, calls := w.calls ++ [.Remove path] })

/-- The call `archiver.NewTarGz().Archive(files, destination)` in a world. -/
def World.TarGzArchive {σ : Type} (env : Env σ) (files : List String) (destination : String)
    (w : World σ) : Option error × World σ :=
  ((env.TarGzArchive files destination w.fs).1,
   { fs := (env.TarGzArchive files destination w.fs).2,
     calls := w.calls ++ [.TarGzArchive files destination] })

/-- The loop `for _, file := range fileInfo` of `Archive`: joins each entry to
`path` with `SafeJoin`, returns at the first error, and otherwise appends the
joined path to `files`. -/
def Archiver.archiveFiles {σ : Type} (env : Env σ) (path : String) :
    List os.FileInfo → List String → World σ → Except error (List String) × World σ
  | [], files, w => (.ok files, w)
  | file :: rest, files, w =>
    match env.SafeJoin path file w.fs with
    | .error err => (.error err, w.record (.SafeJoin path file))
    | .ok f => archiveFiles env path rest (files ++ [f]) (w.record (.SafeJoin path file))

/-- Archive creates an archive of the server and deletes the previous one. -/
def Archiver.Archive {σ : Type} (env : Env σ) (a : Archiver) (w : World σ) :
    Option error × World σ :=
  let path := a.Server.Filesystem.Path
  -- Get the list of root files and directories to archive.
  match env.ReadDir path w.fs with
  | .error err => (some err, w.record (.ReadDir path))
  | .ok fileInfo =>
    match Archiver.archiveFiles env path fileInfo [] (w.record (.ReadDir path)) with
    | (.error err, w1) => (some err, w1)
    | (.ok files, w1) =>
      match a.Stat env w1 with
      | (.error err, w2) =>
        if !os.IsNotExist (some err) then (some err, w2)
        else w2.TarGzArchive env files (a.ArchivePath env)
      | (.ok _, w2) =>
        -- Check if the file exists.
        match w2.Remove env (a.ArchivePath env) with
        | (some err, w3) => (some err, w3)
        | (none, w3) => w3.TarGzArchive env files (a.ArchivePath env)

/-- The calls `Archive` makes up to and including the stat of the archive. -/
def Archiver.prelude {σ : Type} (env : Env σ) (a : Archiver) (children : List os.FileInfo) :
    List Call :=
  Call.ReadDir a.Server.Filesystem.Path ::
    children.map (Call.SafeJoin a.Server.Filesystem.Path) ++ [.unsafeStat (a.ArchivePath env)]

/-- DeleteIfExists deletes the archive if it exists. -/
def Archiver.DeleteIfExists {σ : Type} (env : Env σ) (a : Archiver) (w : World σ) :
    Option error × World σ :=
  match a.Stat env w with
  | (.error err, w1) =>
    if !os.IsNotExist (some err) then (some err, w1)
    else (none, w1)
  | (.ok _, w1) =>
    -- Check if the file exists.
    match w1.Remove env (a.ArchivePath env) with
    | (some err, w2) => (some err, w2)
    | (none, w2) => (none, w2)

namespace binary

/-- `binary.BigEndian.PutUint32`: the four bytes of `v`, most significant first. -/
def PutUint32 (v : Nat) : List Nat :=
  [(v >>> 24) % 256, (v >>> 16) % 256, (v >>> 8) % 256, v % 256]

/-- `binary.BigEndian.PutUint64`: the eight bytes of `v`, most significant first. -/
def PutUint64 (v : Nat) : List Nat :=
  [(v >>> 56) % 256, (v >>> 48) % 256, (v >>> 40) % 256, (v >>> 32) % 256,
   (v >>> 24) % 256, (v >>> 16) % 256, (v >>> 8) % 256, v % 256]

end binary

namespace sha256

/-- The size of a SHA256 checksum in bytes. -/
def Size : Nat := 32

/-- The block size of SHA256 in bytes (`chunk`). -/
def chunk : Nat := 64

/-- The initial hash value (`init0` .. `init7`). -/
def init : List Nat :=
  [0x6a09e667, 0xbb67ae85, 0x3c6ef372, 0xa54ff53a, 0x510e527f, 0x9b05688c, 0x1f83d9ab, 0x5be0cd19]

/-- The round constants `_K`, eight to a row. -/
def _K : List Nat :=
  [0x428a2f98, 0x71374491, 0xb5c0fbcf, 0xe9b5dba5, 0x3956c25b, 0x59f111f1, 0x923f82a4, 0xab1c5ed5] ++
  [0xd807aa98, 0x12835b01, 0x243185be, 0x550c7dc3, 0x72be5d74, 0x80deb1fe, 0x9bdc06a7, 0xc19bf174] ++
  [0xe49b69c1, 0xefbe4786, 0x0fc19dc6, 0x240ca1cc, 0x2de92c6f, 0x4a7484aa, 0x5cb0a9dc, 0x76f988da] ++
  [0x983e5152, 0xa831c66d, 0xb00327c8, 0xbf597fc7, 0xc6e00bf3, 0xd5a79147, 0x06ca6351, 0x14292967] ++
  [0x27b70a85, 0x2e1b2138, 0x4d2c6dfc, 0x53380d13, 0x650a7354, 0x766a0abb, 0x81c2c92e, 0x92722c85] ++
  [0xa2bfe8a1, 0xa81a664b, 0xc24b8b70, 0xc76c51a3, 0xd192e819, 0xd6990624, 0xf40e3585, 0x106aa070] ++
  [0x19a4c116, 0x1e376c08, 0x2748774c, 0x34b0bcb5, 0x391c0cb3, 0x4ed8aa4a, 0x5b9cca4f, 0x682e6ff3] ++
  [0x748f82ee, 0x78a5636f, 0x84c87814, 0x8cc70208, 0x90befffa, 0xa4506ceb, 0xbef9a3f7, 0xc67178f2]

/-- `bits.RotateLeft32(x, -k)` on a 32-bit word. -/
def rotr (x k : Nat) : Nat :=
  ((x >>> k) ||| (x <<< (32 - k))) % 2 ^ 32

/-- The first loop of `blockGeneric`: the sixteen big-endian words of a block. -/
def words (p : List Nat) : List Nat :=
  (List.range 16).map fun i =>
    let j := i * 4
    ((p.getD j 0 % 256) <<< 24) ||| ((p.getD (j + 1) 0 % 256) <<< 16) |||
      ((p.getD (j + 2) 0 % 256) <<< 8) ||| (p.getD (j + 3) 0 % 256)

/-- The second loop of `blockGeneric` (`for i := 16; i < 64; i++`): `n` more
words of the message schedule; `i` is the length of `w`. -/
def extend : Nat → List Nat → List Nat
  | 0, w => w
  | n + 1, w =>
    let i := w.length
    let v1 := w.getD (i - 2) 0
    let t1 := rotr v1 17 ^^^ rotr v1 19 ^^^ (v1 >>> 10)
    let v2 := w.getD (i - 15) 0
    let t2 := rotr v2 7 ^^^ rotr v2 18 ^^^ (v2 >>> 3)
    extend n (w ++ [(t1 + w.getD (i - 7) 0 + t2 + w.getD (i - 16) 0) % 2 ^ 32])

/-- The working variables `a, b, c, d, e, f, g, h` of a block. -/
structure Vars where
  a : Nat
  b : Nat
  c : Nat
  d : Nat
  e : Nat
  f : Nat
  g : Nat
  h : Nat
  deriving DecidableEq, Repr

/-- One iteration of the third loop of `blockGeneric`. -/
def round (w : List Nat) (v : Vars) (i : Nat) : Vars :=
  let t1 := (v.h + (rotr v.e 6 ^^^ rotr v.e 11 ^^^ rotr v.e 25) +
    ((v.e &&& v.f) ^^^ ((v.e ^^^ 0xffffffff) &&& v.g)) + _K.getD i 0 + w.getD i 0) % 2 ^ 32
  let t2 := ((rotr v.a 2 ^^^ rotr v.a 13 ^^^ rotr v.a 22) +
    ((v.a &&& v.b) ^^^ (v.a &&& v.c) ^^^ (v.b &&& v.c))) % 2 ^ 32
  { h := v.g, g := v.f, f := v.e, e := (v.d + t1) % 2 ^ 32,
    d := v.c, c := v.b, b := v.a, a := (t1 + t2) % 2 ^ 32 }

/-- The body of the outer loop of `blockGeneric`: one 64-byte block. -/
def compress (h : List Nat) (p : List Nat) : List Nat :=
  let w := extend 48 (words p)
  let v0 : Vars :=
    { a := h.getD 0 0, b := h.getD 1 0, c := h.getD 2 0, d := h.getD 3 0,
      e := h.getD 4 0, f := h.getD 5 0, g := h.getD 6 0, h := h.getD 7 0 }
  let v := (List.range 64).foldl (round w) v0
  [(h.getD 0 0 + v.a) % 2 ^ 32, (h.getD 1 0 + v.b) % 2 ^ 32,
   (h.getD 2 0 + v.c) % 2 ^ 32, (h.getD 3 0 + v.d) % 2 ^ 32,
   (h.getD 4 0 + v.e) % 2 ^ 32, (h.getD 5 0 + v.f) % 2 ^ 32,
   (h.getD 6 0 + v.g) % 2 ^ 32, (h.getD 7 0 + v.h) % 2 ^ 32]

/-- The outer loop of `blockGeneric` (`for len(p) >= chunk`); the fuel counts
the blocks. -/
def blockGeneric : Nat → List Nat → List Nat → List Nat
  | 0, h, _ => h
  | n + 1, h, p =>
    if p.length ≥ chunk then blockGeneric n (compress h (p.take chunk)) (p.drop chunk)
    else h

/-- The running hash `digest`: the state `h`, the buffered bytes `x[:nx]` and
the number of bytes written, a `uint64`. -/
structure digest where
  h : List Nat
  x : List Nat
  len : Nat
  deriving DecidableEq, Repr

/-- The invariant of a digest: the buffer holds `len % 64` bytes, and `len` is
a `uint64`. -/
def wf (d : digest) : Prop :=
  d.x.length = d.len % chunk ∧ d.len < 2 ^ 64

/-- `block(dig, p)`. -/
def block (d : digest) (p : List Nat) : digest :=
  { d with h := blockGeneric (p.length / chunk) d.h p }

/-- `sha256.New()`: a reset digest. -/
def New : digest :=
  { h := init, x := [], len := 0 }

/-- The first block of `Write`, `if d.nx > 0 { ... }`: tops up the buffer with
`n := copy(d.x[d.nx:], p)` bytes, hashes and empties it when it is full, and
leaves `p[n:]`. -/
def digest.fill (d : digest) (p : List Nat) : digest × List Nat :=
  if d.x.length > 0 then
    let n := min (chunk - d.x.length) p.length
    let d := { d with x := d.x ++ p.take n }
    let d := if d.x.length = chunk then { block d d.x with x := [] } else d
    (d, p.drop n)
  else (d, p)

/-- The second block of `Write`, `if len(p) >= chunk { ... }`: hashes the whole
blocks of `p` (`n := len(p) &^ (chunk - 1)`) and leaves `p[n:]`. -/
def digest.blocks (d : digest) (p : List Nat) : digest × List Nat :=
  if p.length ≥ chunk then
    let n := p.length - p.length % chunk
    (block d (p.take n), p.drop n)
  else (d, p)

/-- The third block of `Write`, `if len(p) > 0 { d.nx = copy(d.x[:], p) }`. -/
def digest.keep (d : digest) (p : List Nat) : digest :=
  if p.length > 0 then { d with x := p } else d

/-- `(*digest).Write`; it returns `len(p), nil` always, so only the digest is
kept. -/
def digest.Write (d : digest) (p : List Nat) : digest :=
  let d := { d with len := (d.len + p.length) % 2 ^ 64 }
  let r := d.fill p
  let r := r.1.blocks r.2
  r.1.keep r.2

/-- `(*digest).checkSum`: pads, appends the length in bits, and returns the
state as 32 big-endian bytes. The Go code panics when bytes stay buffered
after the padding; `checkSum_buffer_empty` shows that this cannot happen. -/
def digest.checkSum (d : digest) : List Nat :=
  let len := d.len
  -- Padding. Add a 1 bit and 0 bits until 56 bytes mod 64.
  let tmp := 0x80 :: List.replicate 63 0
  let d := if len % 64 < 56 then d.Write (tmp.take (56 - len % 64))
           else d.Write (tmp.take (64 + 56 - len % 64))
  -- Length in bits.
  let len := (len <<< 3) % 2 ^ 64
  let d := d.Write (binary.PutUint64 len)
  (List.range 8).flatMap fun i => binary.PutUint32 (d.h.getD i 0)

/-- `(*digest).Sum`: the checksum of a copy of the digest, appended to `b`. -/
def digest.Sum (d : digest) (b : List Nat) : List Nat :=
  b ++ d.checkSum

/-- `sha256.Sum256`: the checksum of the data, written in one piece. -/
def Sum256 (data : List Nat) : List Nat :=
  (New.Write data).checkSum

end sha256

namespace hex

/-- The digits of `hex.EncodeToString`. -/
def hextable : List Char := "0123456789abcdef".data

/-- `hex.EncodeToString`: two digits for each byte, high nibble first. -/
def EncodeToString (src : List Nat) : String :=
  ⟨src.flatMap fun v => [hextable.getD ((v % 256) >>> 4) '0', hextable.getD ((v % 256) &&& 0x0f) '0']⟩

end hex

namespace io

/-- The loop of `io.copyBuffer` from an `*os.File` into a SHA256 digest with a
buffer of `n` bytes: `(written, err, dst, src)` once the loop is left. A
digest's `Write` takes every byte and never fails, so `nw = nr` and
`ew = nil`. Each pass either reads a byte or leaves the loop; the result is
`none` when the fuel runs out first. -/
def copyBuffer : Nat → sha256.digest → os.File → Nat → Nat →
    Option (Nat × Option error × sha256.digest × os.File)
  | 0, _, _, _, _ => none
  | fuel + 1, dst, src, n, written =>
    match src.Read n with
    | (bytes, er, src1) =>
      let dst1 := if bytes.length > 0 then dst.Write bytes else dst
      let written1 := if bytes.length > 0 then written + bytes.length else written
      match er with
      | some e => if e ≠ error.EOF then some (written1, some e, dst1, src1)
                  else some (written1, none, dst1, src1)
      | none => copyBuffer fuel dst1 src1 n written1

/-- `io.CopyBuffer(dst, src, buf)` with `len(buf) = n`: neither a file of this
Go version nor a digest offers `WriteTo` or `ReadFrom`, so the buffer is used. -/
def CopyBuffer (dst : sha256.digest) (src : os.File) (n : Nat) :
    Option (Nat × Option error × sha256.digest × os.File) :=
  copyBuffer (src.data.length + 1) dst src n 0

end io

/-- Checksum computes a SHA256 checksum of the server's archive. The result
is `none` only if the copy loop ran out of fuel, which `CopyBuffer_isSome`
excludes. -/
def Archiver.Checksum {σ : Type} (env : Env σ) (a : Archiver) (w : World σ) :
    Option ((String × Option error) × World σ) :=
  match env.Open (a.ArchivePath env) w.fs with
  | .error err => some (("", some err), w.record (.Open (a.ArchivePath env)))
  | .ok file =>
    let w1 := w.record (.Open (a.ArchivePath env))
    let hash := sha256.New
    let buf := 1024 * 4
    match io.CopyBuffer hash file buf with
    | none => none
    | some (_, some err, _, _) => some (("", some err), w1.record (.Close (a.ArchivePath env)))
    | some (_, none, hash1, _) =>
      some ((hex.EncodeToString (hash1.Sum []), none), w1.record (.Close (a.ArchivePath env)))

/-! ## The facts about the collaborators that the lifecycle relies on -/

/-- The archive is absent as far as the code can observe: `os.Stat` of the
archive path reports "not found" in the state `s`. A missing file behind a
path whose stat fails with another error (permission denied, say) is not
`Absent`. -/
def Archiver.Absent {σ : Type} (env : Env σ) (a : Archiver) (s : σ) : Prop :=
  os.IsNotExist (errOf (env.Stat (a.ArchivePath env) s)) = true

/-- A successful `os.Remove` removes: `os.Stat` of the path reports "not
found" afterwards. -/
def Env.RemoveUnlinks {σ : Type} (env : Env σ) : Prop :=
  ∀ (p : String) (s : σ), (env.Remove p s).1 = none →
    os.IsNotExist (errOf (env.Stat p (env.Remove p s).2)) = true

/-- The metadata provider reports "not found" exactly when `os.Stat` does
(the specification of `Stat()`: it fails with `NotFound` if the file is
absent, with another error otherwise). -/
def Env.StatCoherent {σ : Type} (env : Env σ) : Prop :=
  ∀ (p : String) (s : σ),
    os.IsNotExist (errOf (env.unsafeStat p s)) = os.IsNotExist (errOf (env.Stat p s))

/-- Opening a path that `os.Stat` reports as "not found" fails with a "not
found" error. -/
def Env.OpenCoherent {σ : Type} (env : Env σ) : Prop :=
  ∀ (p : String) (s : σ), os.IsNotExist (errOf (env.Stat p s)) = true →
    os.IsNotExist (errOf (env.Open p s)) = true

/-- The compression capability creates its destination whenever it returns no
error: `os.Stat` of the destination does not report "not found" afterwards. -/
def Env.CompressionCreates {σ : Type} (env : Env σ) : Prop :=
  ∀ (files : List String) (dst : String) (s : σ), (env.TarGzArchive files dst s).1 = none →
    os.IsNotExist (errOf (env.Stat dst (env.TarGzArchive files dst s).2)) = false

/-! ## A small filesystem

A concrete set of collaborators, used to run the archiver on examples. -/

namespace sim

/-- A filesystem state: the regular files with their contents, the directories
with their listings, the names of the symbolic links in a data directory whose
target lies outside of it, and the paths the process may not access. -/
structure FS where
  files : List (String × List Nat)
  dirs : List (String × List os.FileInfo)
  escaping : List String
  denied : List String
  deriving DecidableEq, Repr

/-- Whether `p` lies below a regular file: some file `f` has `f/` as a prefix
of `p`. -/
def belowFile (p : String) (s : FS) : Bool :=
  s.files.any fun e => (e.1.data ++ ['/']).isPrefixOf p.data

/-- The path lookup that every call starts with: `EACCES` for a path the
process may not access, `ENOTDIR` for a path below a regular file. -/
def lookupErr (op p : String) (s : FS) : Option error :=
  if p ∈ s.denied then some (.PathError op p (.Errno .EACCES))
  else if belowFile p s then some (.PathError op p (.Errno .ENOTDIR))
  else none

/-- `os.Stat`; `Name` keeps the whole path. -/
def osStat (p : String) (s : FS) : Except error os.FileInfo :=
  match lookupErr "stat" p s with
  | some err => .error err
  | none =>
    match s.files.lookup p with
    | some c => .ok { Name := p, Size := c.length, IsDir := false, IsSymlink := false }
    | none =>
      match s.dirs.lookup p with
      | some _ => .ok { Name := p, Size := 0, IsDir := true, IsSymlink := false }
      | none => .error (.PathError "stat" p (.Errno .ENOENT))

/-- `ioutil.ReadDir`. -/
def ReadDir (p : String) (s : FS) : Except error (List os.FileInfo) :=
  match lookupErr "open" p s with
  | some err => .error err
  | none =>
    match s.files.lookup p with
    | some _ => .error (.PathError "readdirent" p (.Errno .ENOTDIR))
    | none =>
      match s.dirs.lookup p with
      | some l => .ok l
      | none => .error (.PathError "open" p (.Errno .ENOENT))

/-- `os.Open`: a directory opens as well, and reading it fails with `EISDIR`. -/
def Open (p : String) (s : FS) : Except error os.File :=
  match lookupErr "open" p s with
  | some err => .error err
  | none =>
    match s.files.lookup p with
    | some c => .ok { name := p, data := c, short := [], fault := none }
    | none =>
      match s.dirs.lookup p with
      | some _ =>
        .ok { name := p, data := [], short := [],
              fault := some (.PathError "read" p (.Errno .EISDIR)) }
      | none => .error (.PathError "open" p (.Errno .ENOENT))

/-- The state without the entry at `p`. -/
def unlink (p : String) (s : FS) : FS :=
  { s with files := s.files.filter (fun e => e.1 != p), dirs := s.dirs.filter (fun e => e.1 != p) }

/-- `os.Remove`: removes a file or an empty directory. -/
def Remove (p : String) (s : FS) : Option error × FS :=
  match lookupErr "remove" p s with
  | some err => (some err, s)
  | none =>
    match s.files.lookup p with
    | some _ => (none, unlink p s)
    | none =>
      match s.dirs.lookup p with
      | some [] => (none, unlink p s)
      | some (_ :: _) => (some (.PathError "remove" p (.Errno .ENOTEMPTY)), s)
      | none => (some (.PathError "remove" p (.Errno .ENOENT)), s)

/-- The error `InvalidPathResolution` of the path resolver. -/
def InvalidPathResolution : error := .New "invalid path resolution"

/-- `SafeJoin`: a symbolic link that leaves the data directory is rejected,
any other entry is joined to the directory. -/
def SafeJoin (dir : String) (f : os.FileInfo) (s : FS) : Except error String :=
  if f.IsSymlink && f.Name ∈ s.escaping then .error InvalidPathResolution
  else .ok (filepath.Join dir f.Name)

/-- `unsafeStat`: `os.Stat` with a MIME type. -/
def unsafeStat (p : String) (s : FS) : Except error Stat :=
  match osStat p s with
  | .error err => .error err
  | .ok info =>
    .ok { Info := info,
          Mimetype := if info.IsDir then "inode/directory" else "application/octet-stream" }

/-- The compression capability with `OverwriteExisting` unset: it refuses an
existing destination, and otherwise writes a file there, whose contents stand
in for the compressed stream. -/
def TarGzArchive (files : List String) (dst : String) (s : FS) : Option error × FS :=
  match lookupErr "open" dst s with
  | some err => (some err, s)
  | none =>
    match osStat dst s with
    | .ok _ => (some (.New ("file already exists: " ++ dst)), s)
    | .error _ =>
      (none, { s with files := (dst, files.flatMap fun f => (s.files.lookup f).getD []) :: s.files })

/-- The collaborators over `FS`, with the archive directory `dir`. -/
def env (dir : String) : Env FS :=
  { ArchiveDirectory := dir, unsafeStat := unsafeStat, Stat := osStat, ReadDir := ReadDir,
    Open := Open, Remove := Remove, SafeJoin := SafeJoin, TarGzArchive := TarGzArchive }

/-- A server whose data directory is `/srv/data`. -/
def archiver : Archiver :=
  { Server := { Id := "a", Filesystem := { Path := "/srv/data" } } }

/-- The data directory holds `a.txt` ("hello") and `b.txt` ("world"); no
archive. -/
def fresh : FS :=
  { files := [("/srv/data/a.txt", [104, 101, 108, 108, 111]),
              ("/srv/data/b.txt", [119, 111, 114, 108, 100])],
    dirs := [("/srv/data",
      [{ Name := "a.txt", Size := 5, IsDir := false, IsSymlink := false },
       { Name := "b.txt", Size := 5, IsDir := false, IsSymlink := false }]),
      ("/archives", [])],
    escaping := [], denied := [] }

/-- As `fresh`, with an archive of an earlier run. -/
def archived : FS :=
  { fresh with files := ("/archives/a.tar.gz", [1, 2, 3]) :: fresh.files }

/-- As `archived`, with a symbolic link `evil -> /etc` in the data directory. -/
def linked : FS :=
  { archived with
    dirs := [("/srv/data",
      [{ Name := "a.txt", Size := 5, IsDir := false, IsSymlink := false },
       { Name := "evil", Size := 4, IsDir := false, IsSymlink := true }]),
      ("/archives", [])],
    escaping := ["evil"] }

/-- As `archived`, but the archive may not be accessed. -/
def locked : FS :=
  { archived with denied := ["/archives/a.tar.gz"] }

/-- As `fresh`: no archive, and the archive path may not be accessed. -/
def hidden : FS :=
  { fresh with denied := ["/archives/a.tar.gz"] }

/-- As `fresh`, but a non-empty directory sits at the archive path. -/
def blocked : FS :=
  { fresh with
    dirs := ("/archives/a.tar.gz",
      [{ Name := "x", Size := 0, IsDir := false, IsSymlink := false }]) :: fresh.dirs }

/-- As `fresh`, but the data directory may not be read. -/
def unreadable : FS :=
  { fresh with denied := ["/srv/data"] }

end sim

/-! ## `filepath.Clean` and `filepath.Join` -/

namespace filepath

theorem IsPathSeparator_sep : IsPathSeparator Separator = true := by decide

/-- The model of `Clean` gives the results that the table of the Go test
suite (`cleantests`) lists. -/
theorem Clean_test_table :
    ∀ t ∈
    [("abc", "abc"),
     ("abc/def", "abc/def"),
     ("a/b/c", "a/b/c"),
     (".", "."),
     ("..", ".."),
     ("../..", "../.."),
     ("../../abc", "../../abc"),
     ("/abc", "/abc"),
     ("/", "/"),
     ("", "."),
     ("abc/", "abc"),
     ("abc/def/", "abc/def"),
     ("a/b/c/", "a/b/c"),
     ("./", "."),
     ("../", ".."),
     ("../../", "../.."),
     ("/abc/", "/abc"),
     ("abc//def//ghi", "abc/def/ghi"),
     ("//abc", "/abc"),
     ("///abc", "/abc"),
     ("//abc//", "/abc"),
     ("abc//", "abc"),
     ("abc/./def", "abc/def"),
     ("/./abc/def", "/abc/def"),
     ("abc/.", "abc"),
     ("abc/def/ghi/../jkl", "abc/def/jkl"),
     ("abc/def/../ghi/../jkl", "abc/jkl"),
     ("abc/def/..", "abc"),
     ("abc/def/../..", "."),
     ("/abc/def/../..", "/"),
     ("abc/def/../../..", ".."),
     ("/abc/def/../../..", "/"),
     ("abc/def/../../../ghi/jkl/../../../mno", "../../mno"),
     ("/../abc", "/abc"),
     ("abc/./../def", "def"),
     ("abc//./../def", "def"),
     ("abc/../../././../def", "../../def")],
      Clean t.1 = t.2 := by
  decide

/-- `Join` on the examples of the Go documentation and test suite. -/
theorem Join_test_table :
    Join "a" "b" = "a/b" ∧ Join "a" "" = "a" ∧ Join "" "b" = "b" ∧ Join "/" "a" = "/a" ∧
    Join "a/" "b" = "a/b" ∧ Join "a" "b/c" = "a/b/c" ∧ Join "a/b" "../../../xyz" = "../xyz" ∧
    Join "" "" = "" := by
  decide

theorem takeWhile_append_sep (xs ys : List Char) :
    (xs ++ Separator :: ys).takeWhile (fun x => !IsPathSeparator x)
      = xs.takeWhile (fun x => !IsPathSeparator x) := by
  induction xs with
  | nil => simp [List.takeWhile, IsPathSeparator_sep]
  | cons c cs ih =>
    simp only [List.cons_append, List.takeWhile]
    cases h : (!IsPathSeparator c) <;> simp [ih]

theorem dropWhile_append_sep (xs ys : List Char) :
    (xs ++ Separator :: ys).dropWhile (fun x => !IsPathSeparator x)
      = xs.dropWhile (fun x => !IsPathSeparator x) ++ Separator :: ys := by
  induction xs with
  | nil => simp [List.dropWhile, IsPathSeparator_sep]
  | cons c cs ih =>
    simp only [List.cons_append, List.dropWhile]
    cases h : (!IsPathSeparator c) <;> simp [ih]

theorem takeWhile_of_no_sep (name : List Char) (h : ∀ c ∈ name, IsPathSeparator c = false) :
    name.takeWhile (fun x => !IsPathSeparator x) = name := by
  rw [List.takeWhile_eq_self_iff]
  intro c hc; simp [h c hc]

theorem dropWhile_of_no_sep (name : List Char) (h : ∀ c ∈ name, IsPathSeparator c = false) :
    name.dropWhile (fun x => !IsPathSeparator x) = [] := by
  rw [List.dropWhile_eq_nil_iff]
  intro c hc; simp [h c hc]

theorem dropWhile_length_le (xs : List Char) :
    (xs.dropWhile (fun x => !IsPathSeparator x)).length ≤ xs.length := by
  induction xs with
  | nil => simp
  | cons c cs ih =>
    simp only [List.dropWhile]
    split
    · simp only [List.length_cons]; omega
    · simp

theorem cleanLoop_nil (rooted : Bool) (fuel : Nat) (out : List Char) (dotdot : Nat) :
    cleanLoop rooted fuel [] out dotdot = out := by
  cases fuel <;> rfl

/-- What the loop appends for a real path element. -/
theorem cleanLoop_elem (rooted : Bool) (fuel : Nat) (name out : List Char) (dotdot : Nat)
    (hsep : ∀ c ∈ name, IsPathSeparator c = false) (hlen : 3 ≤ name.length)
    (hfuel : 1 ≤ fuel) :
    cleanLoop rooted fuel name out dotdot =
      (if (rooted && out.length != 1) || (!rooted && out.length != 0) then out ++ [Separator]
        else out) ++ name := by
  obtain ⟨f, rfl⟩ : ∃ f, fuel = f + 1 := ⟨fuel - 1, by omega⟩
  match name, hlen, hsep with
  | c :: d :: e :: rest, _, hsep =>
    have hc : IsPathSeparator c = false := hsep c (by simp)
    have hd : IsPathSeparator d = false := hsep d (by simp)
    have he : IsPathSeparator e = false := hsep e (by simp)
    have htw := takeWhile_of_no_sep _ hsep
    have hdw := dropWhile_of_no_sep _ hsep
    simp only [cleanLoop, hc, htw, hdw, cleanLoop_nil, List.headD_cons, hd, List.tail_cons, he,
      List.isEmpty_cons, Bool.or_false, Bool.and_false, Bool.false_eq_true, if_false]

end filepath

namespace filepath

theorem headD_append_sep (xs ys : List Char) :
    (xs ++ Separator :: ys).headD Separator = xs.headD Separator := by
  cases xs <;> rfl

theorem atEnd_append_sep (xs ys : List Char) :
    ((xs ++ Separator :: ys).isEmpty || IsPathSeparator ((xs ++ Separator :: ys).headD Separator))
      = (xs.isEmpty || IsPathSeparator (xs.headD Separator)) := by
  cases xs <;> simp [IsPathSeparator_sep]

/-- The state of the loop after the elements of `xs` does not depend on what
follows the separator behind them. -/
theorem cleanLoop_append_elem (rooted : Bool) (name : List Char)
    (hsep : ∀ c ∈ name, IsPathSeparator c = false) (hlen : 3 ≤ name.length) :
    ∀ (n : Nat) (xs : List Char), xs.length ≤ n → ∀ (f1 f2 : Nat) (out : List Char) (dotdot : Nat),
      xs.length + 2 ≤ f1 → xs.length ≤ f2 →
      cleanLoop rooted f1 (xs ++ Separator :: name) out dotdot =
        (if (rooted && (cleanLoop rooted f2 xs out dotdot).length != 1) ||
            (!rooted && (cleanLoop rooted f2 xs out dotdot).length != 0)
          then cleanLoop rooted f2 xs out dotdot ++ [Separator]
          else cleanLoop rooted f2 xs out dotdot) ++ name := by
  intro n
  induction n with
  | zero =>
    intro xs hn f1 f2 out dotdot h1 _
    have hxs : xs = [] := List.length_eq_zero.mp (Nat.le_zero.mp hn)
    subst hxs
    obtain ⟨f, rfl⟩ : ∃ f, f1 = f + 1 := ⟨f1 - 1, by simp at h1; omega⟩
    rw [cleanLoop_nil]
    simp only [List.nil_append, cleanLoop, IsPathSeparator_sep, if_true]
    exact cleanLoop_elem rooted f name out dotdot hsep hlen (by simp at h1; omega)
  | succ n ih =>
    intro xs hn f1 f2 out dotdot h1 h2
    match xs, hn, h1, h2 with
    | [], _, h1, _ =>
      obtain ⟨f, rfl⟩ : ∃ f, f1 = f + 1 := ⟨f1 - 1, by simp at h1; omega⟩
      rw [cleanLoop_nil]
      simp only [List.nil_append, cleanLoop, IsPathSeparator_sep, if_true]
      exact cleanLoop_elem rooted f name out dotdot hsep hlen (by simp at h1; omega)
    | c :: rest, hn, h1, h2 =>
      simp only [List.length_cons] at hn h1 h2
      obtain ⟨g1, rfl⟩ : ∃ f, f1 = f + 1 := ⟨f1 - 1, by omega⟩
      obtain ⟨g2, rfl⟩ : ∃ f, f2 = f + 1 := ⟨f2 - 1, by omega⟩
      have hrest : rest.length ≤ n := by omega
      simp only [List.cons_append, cleanLoop]
      by_cases hc : IsPathSeparator c = true
      · simp only [hc, if_true]
        exact ih rest hrest g1 g2 out dotdot (by omega) (by omega)
      · simp only [hc, Bool.false_eq_true, if_false]
        rw [atEnd_append_sep, headD_append_sep]
        by_cases hdot : (c == '.' && (rest.isEmpty || IsPathSeparator (rest.headD Separator))) = true
        · simp only [hdot, if_true]
          exact ih rest hrest g1 g2 out dotdot (by omega) (by omega)
        · simp only [hdot, Bool.false_eq_true, if_false]
          have hdef : ∀ (o : List Char),
              cleanLoop rooted g1
                ((c :: (rest ++ Separator :: name)).dropWhile (fun x => !IsPathSeparator x))
                (o ++ (c :: (rest ++ Separator :: name)).takeWhile (fun x => !IsPathSeparator x))
                dotdot =
              (if (rooted && (cleanLoop rooted g2
                    ((c :: rest).dropWhile (fun x => !IsPathSeparator x))
                    (o ++ (c :: rest).takeWhile (fun x => !IsPathSeparator x)) dotdot).length != 1) ||
                  (!rooted && (cleanLoop rooted g2
                    ((c :: rest).dropWhile (fun x => !IsPathSeparator x))
                    (o ++ (c :: rest).takeWhile (fun x => !IsPathSeparator x)) dotdot).length != 0)
                then cleanLoop rooted g2 ((c :: rest).dropWhile (fun x => !IsPathSeparator x))
                    (o ++ (c :: rest).takeWhile (fun x => !IsPathSeparator x)) dotdot ++ [Separator]
                else cleanLoop rooted g2 ((c :: rest).dropWhile (fun x => !IsPathSeparator x))
                    (o ++ (c :: rest).takeWhile (fun x => !IsPathSeparator x)) dotdot) ++ name := by
            intro o
            have e1 : c :: (rest ++ Separator :: name) = (c :: rest) ++ Separator :: name := rfl
            rw [e1, takeWhile_append_sep, dropWhile_append_sep]
            have hle : ((c :: rest).dropWhile (fun x => !IsPathSeparator x)).length ≤ rest.length := by
              have : (c :: rest).dropWhile (fun x => !IsPathSeparator x)
                  = rest.dropWhile (fun x => !IsPathSeparator x) := by
                simp [List.dropWhile, hc]
              rw [this]; exact dropWhile_length_le rest
            exact ih _ (by omega) g1 g2 _ dotdot (by omega) (by omega)
          cases rest with
          | nil =>
            -- a single character that is neither a separator nor a dot element
            have hsd : (Separator == '.') = false := by decide
            simp only [List.headD_nil, hsd, Bool.and_false, Bool.false_and, Bool.false_eq_true,
              if_false]
            exact hdef _
          | cons d rest2 =>
            simp only [List.headD_cons, List.tail_cons, List.cons_append]
            rw [atEnd_append_sep]
            by_cases hdd : (c == '.' && d == '.' &&
                (rest2.isEmpty || IsPathSeparator (rest2.headD Separator))) = true
            · simp only [hdd, if_true]
              have hr2 : rest2.length ≤ n := by simp at hrest; omega
              simp only [List.length_cons] at h1 h2
              by_cases hw : out.length > dotdot
              · simp only [hw, if_true]
                exact ih rest2 hr2 g1 g2 _ dotdot (by omega) (by omega)
              · simp only [hw, if_false]
                cases rooted
                · simp only [Bool.not_false, if_true]
                  exact ih rest2 hr2 g1 g2 _ _ (by omega) (by omega)
                · simp only [Bool.not_true, Bool.false_eq_true, if_false]
                  exact ih rest2 hr2 g1 g2 _ _ (by omega) (by omega)
            · simp only [hdd, Bool.false_eq_true, if_false]
              exact hdef _

end filepath

namespace filepath

/-- Cleaning a single real path element leaves it as it is. -/
theorem cleanChars_elem (name : List Char)
    (hsep : ∀ c ∈ name, IsPathSeparator c = false) (hlen : 3 ≤ name.length) :
    cleanChars name = name := by
  match name, hlen, hsep with
  | c :: rest, hlen, hsep =>
    have hc : IsPathSeparator c = false := hsep c (by simp)
    have h := cleanLoop_elem false (c :: rest).length (c :: rest) [] 0 hsep hlen (by simp)
    simp only [cleanChars, hc, Bool.false_eq_true, if_false, h]
    simp

theorem dot_of_empty_append (o name : List Char) (h : 1 ≤ name.length) :
    (if ((o ++ name).length == 0) = true then ['.'] else o ++ name) = o ++ name := by
  rw [if_neg]
  simp only [List.length_append, beq_iff_eq]
  omega

/-- The cleaned form of `dir/name` for a real path element `name`: the name
behind a prefix that depends on the directory alone. -/
theorem cleanChars_append_elem (dir : List Char) (hdir : dir ≠ []) :
    ∃ out : List Char,
      (cleanChars dir = if out.length == 0 then ['.'] else out) ∧
      ∀ name : List Char, (∀ c ∈ name, IsPathSeparator c = false) → 3 ≤ name.length →
        cleanChars (dir ++ Separator :: name) =
          (if (IsPathSeparator (dir.headD Separator) && out.length != 1) ||
              (!IsPathSeparator (dir.headD Separator) && out.length != 0)
            then out ++ [Separator] else out) ++ name := by
  match dir, hdir with
  | c :: ds, _ =>
    by_cases hc : IsPathSeparator c = true
    · refine ⟨cleanLoop true (c :: ds).length ds [Separator] 1, ?_, ?_⟩
      · simp [cleanChars, hc]
      · intro name hsep hlen
        have h := cleanLoop_append_elem true name hsep hlen ds.length ds le_rfl
          (c :: (ds ++ Separator :: name)).length (c :: ds).length [Separator] 1
          (by simp) (by simp)
        simp only [cleanChars, List.cons_append, hc, if_true, List.tail_cons, h, List.headD_cons]
        exact dot_of_empty_append _ name (by omega)
    · refine ⟨cleanLoop false (c :: ds).length (c :: ds) [] 0, ?_, ?_⟩
      · simp [cleanChars, hc]
      · intro name hsep hlen
        have h := cleanLoop_append_elem false name hsep hlen (c :: ds).length (c :: ds) le_rfl
          (c :: (ds ++ Separator :: name)).length (c :: ds).length [] 0
          (by simp; omega) (by simp)
        simp only [List.cons_append] at h
        simp only [cleanChars, List.cons_append, hc, Bool.false_eq_true, if_false, h,
          List.headD_cons]
        exact dot_of_empty_append _ name (by omega)

end filepath

/-- The characters of an archive name form a real path element when the
identity holds no separator. -/
theorem ArchiveName_elem (a : Archiver) (hid : ∀ c ∈ a.Server.Id.data, c ≠ '/') :
    (∀ c ∈ a.ArchiveName.data, filepath.IsPathSeparator c = false) ∧
      3 ≤ a.ArchiveName.data.length := by
  constructor
  · intro c hc
    simp only [Archiver.ArchiveName, String.data_append, List.mem_append] at hc
    rcases hc with hc | hc
    · simpa [filepath.IsPathSeparator, filepath.Separator] using hid c hc
    · have : c ∈ ['.', 't', 'a', 'r', '.', 'g', 'z'] := hc
      simp only [List.mem_cons, List.mem_singleton, List.not_mem_nil, or_false] at this
      rcases this with h | h | h | h | h | h | h <;> subst h <;> decide
  · simp only [Archiver.ArchiveName, String.data_append, List.length_append]
    have h7 : ['.', 't', 'a', 'r', '.', 'g', 'z'].length = 7 := rfl
    rw [h7]
    omega

theorem Join_data (d n : String) (hd : d ≠ "") :
    (filepath.Join d n).data = filepath.cleanChars (d.data ++ filepath.Separator :: n.data) := by
  have : (d != "") = true := by simpa using hd
  simp only [filepath.Join, this, if_true, filepath.Clean, String.data_append]
  rw [List.append_assoc, List.singleton_append]
  rfl

theorem Join_empty_data (n : String) (hn : n ≠ "") :
    (filepath.Join "" n).data = filepath.cleanChars n.data := by
  have : (n != "") = true := by simpa using hn
  simp [filepath.Join, this, filepath.Clean]

theorem ArchiveName_ne_empty (a : Archiver) : a.ArchiveName ≠ "" := by
  intro h
  have := congrArg (fun s => s.data.length) h
  simp [Archiver.ArchiveName] at this

theorem String_data_ne_nil (d : String) (hd : d ≠ "") : d.data ≠ [] := by
  intro h; apply hd; exact String.ext h

theorem ArchivePath_of_clean {σ : Type} (env : Env σ) (a : Archiver)
    (hclean : filepath.Clean env.ArchiveDirectory = env.ArchiveDirectory)
    (hroot : env.ArchiveDirectory ≠ "/") (hdot : env.ArchiveDirectory ≠ ".")
    (hid : ∀ c ∈ a.Server.Id.data, c ≠ '/') :
    a.ArchivePath env = env.ArchiveDirectory ++ "/" ++ a.Server.Id ++ ".tar.gz" := by
  obtain ⟨hsep, hlen⟩ := ArchiveName_elem a hid
  have hd : env.ArchiveDirectory ≠ "" := by
    intro h; rw [h] at hclean; revert hclean; decide
  have hdn := String_data_ne_nil _ hd
  obtain ⟨out, hout, hall⟩ := filepath.cleanChars_append_elem env.ArchiveDirectory.data hdn
  have hcd : filepath.cleanChars env.ArchiveDirectory.data = env.ArchiveDirectory.data := by
    have := congrArg String.data hclean
    simpa [filepath.Clean] using this
  rw [hcd] at hout
  apply String.ext
  rw [Archiver.ArchivePath, Join_data _ _ hd, hall _ hsep hlen]
  by_cases ho : (out.length == 0) = true
  · rw [if_pos ho] at hout
    exact absurd (String.ext hout) hdot
  · rw [if_neg ho] at hout
    subst hout
    simp only [String.data_append, Archiver.ArchiveName]
    match hdata : env.ArchiveDirectory.data, hdn with
    | c :: ds, _ =>
      by_cases hc : filepath.IsPathSeparator c = true
      · have hds : ds ≠ [] := by
          intro h
          apply hroot
          apply String.ext
          rw [hdata, h]
          have : c = '/' := by simpa [filepath.IsPathSeparator, filepath.Separator] using hc
          rw [this]
        simp [hc, hds, filepath.Separator]
      · simp [hc, filepath.Separator]

theorem ArchivePath_inj {σ : Type} (env : Env σ) (a1 a2 : Archiver)
    (h1 : ∀ c ∈ a1.Server.Id.data, c ≠ '/') (h2 : ∀ c ∈ a2.Server.Id.data, c ≠ '/')
    (heq : a1.ArchivePath env = a2.ArchivePath env) : a1.Server.Id = a2.Server.Id := by
  obtain ⟨hsep1, hlen1⟩ := ArchiveName_elem a1 h1
  obtain ⟨hsep2, hlen2⟩ := ArchiveName_elem a2 h2
  have hnames : a1.ArchiveName.data = a2.ArchiveName.data := by
    have hdata := congrArg String.data heq
    by_cases hd : env.ArchiveDirectory = ""
    · simp only [Archiver.ArchivePath, hd] at hdata
      rw [Join_empty_data _ (ArchiveName_ne_empty a1), Join_empty_data _ (ArchiveName_ne_empty a2),
        filepath.cleanChars_elem _ hsep1 hlen1, filepath.cleanChars_elem _ hsep2 hlen2] at hdata
      exact hdata
    · obtain ⟨out, -, hall⟩ :=
        filepath.cleanChars_append_elem env.ArchiveDirectory.data (String_data_ne_nil _ hd)
      simp only [Archiver.ArchivePath] at hdata
      rw [Join_data _ _ hd, Join_data _ _ hd, hall _ hsep1 hlen1, hall _ hsep2 hlen2] at hdata
      exact List.append_cancel_left hdata
  simp only [Archiver.ArchiveName, String.data_append] at hnames
  exact String.ext (List.append_cancel_right hnames)

/-! ## The small filesystem obeys the laws -/

namespace sim

theorem lookup_filter_ne {β : Type} (p : String) (l : List (String × β)) :
    (l.filter (fun e => e.1 != p)).lookup p = none := by
  induction l with
  | nil => rfl
  | cons e es ih =>
    obtain ⟨k, v⟩ := e
    by_cases hk : k = p
    · subst hk; simpa [List.filter] using ih
    · have h1 : (k != p) = true := by simpa using hk
      have h2 : (p == k) = false := by simpa using fun h : p = k => hk h.symm
      simp only [List.filter, h1, List.lookup, h2]
      exact ih

theorem lookupErr_eq_none (op p : String) (s : FS) :
    lookupErr op p s = none ↔ p ∉ s.denied ∧ belowFile p s = false := by
  unfold lookupErr
  by_cases hd : p ∈ s.denied
  · simp [hd]
  · cases hb : belowFile p s <;> simp [hd]

theorem lookupErr_not_found (op p : String) (s : FS) (err : error)
    (h : lookupErr op p s = some err) : os.IsNotExist (some err) = false := by
  unfold lookupErr at h
  by_cases hd : p ∈ s.denied
  · simp only [hd, if_true, Option.some.injEq] at h; subst h; rfl
  · cases hb : belowFile p s
    · simp [hd, hb] at h
    · simp only [hd, hb, if_false, if_true, Option.some.injEq] at h; subst h; rfl

theorem belowFile_unlink (p : String) (s : FS) (h : belowFile p s = false) :
    belowFile p (unlink p s) = false := by
  simp only [belowFile, unlink, List.any_eq_false, List.mem_filter] at h ⊢
  intro e he
  exact h e he.1

theorem osStat_unlink (p : String) (s : FS) (h : lookupErr "remove" p s = none) :
    osStat p (unlink p s) = .error (.PathError "stat" p (.Errno .ENOENT)) := by
  obtain ⟨hd, hb⟩ := (lookupErr_eq_none _ p s).mp h
  have h1 : lookupErr "stat" p (unlink p s) = none :=
    (lookupErr_eq_none _ p _).mpr ⟨hd, belowFile_unlink p s hb⟩
  simp only [osStat, h1]
  simp [unlink, lookup_filter_ne]

theorem env_RemoveUnlinks (dir : String) : (env dir).RemoveUnlinks := by
  intro p s h
  simp only [env, Remove] at h ⊢
  cases hl : lookupErr "remove" p s with
  | some err => simp [hl] at h
  | none =>
    simp only [hl] at h ⊢
    cases hf : s.files.lookup p with
    | some c => simp only [hf]; rw [osStat_unlink p s hl]; rfl
    | none =>
      simp only [hf] at h ⊢
      cases hd : s.dirs.lookup p with
      | none => simp [hd] at h
      | some l =>
        cases l with
        | nil => simp only [hd]; rw [osStat_unlink p s hl]; rfl
        | cons x xs => simp [hd] at h

theorem env_StatCoherent (dir : String) : (env dir).StatCoherent := by
  intro p s
  simp only [env, unsafeStat]
  cases osStat p s <;> rfl

theorem env_OpenCoherent (dir : String) : (env dir).OpenCoherent := by
  intro p s h
  simp only [env, osStat, Open] at h ⊢
  cases hl : lookupErr "stat" p s with
  | some err =>
    rw [hl] at h
    simp only [errOf] at h
    rw [lookupErr_not_found _ p s err hl] at h
    exact absurd h (by decide)
  | none =>
    have hl2 : lookupErr "open" p s = none :=
      (lookupErr_eq_none _ p s).mpr ((lookupErr_eq_none _ p s).mp hl)
    simp only [hl] at h
    simp only [hl2]
    cases hf : s.files.lookup p with
    | some c => simp [hf, errOf, os.IsNotExist] at h
    | none =>
      simp only [hf] at h ⊢
      cases hd : s.dirs.lookup p with
      | some l => simp [hd, errOf, os.IsNotExist] at h
      | none => rfl

theorem not_isPrefixOf_snoc (l : List Char) (c : Char) : (l ++ [c]).isPrefixOf l = false := by
  cases h : (l ++ [c]).isPrefixOf l with
  | false => rfl
  | true =>
    have hp : (l ++ [c]) <+: l := List.isPrefixOf_iff_prefix.mp h
    have := hp.length_le
    simp at this

theorem env_CompressionCreates (dir : String) : (env dir).CompressionCreates := by
  intro files dst s h
  simp only [env, TarGzArchive] at h ⊢
  cases hl : lookupErr "open" dst s with
  | some err => simp [hl] at h
  | none =>
    simp only [hl] at h ⊢
    cases hs : osStat dst s with
    | ok i => simp [hs] at h
    | error e =>
      simp only [hs]
      obtain ⟨hd, hb⟩ := (lookupErr_eq_none _ dst s).mp hl
      have h1 : lookupErr "stat" dst
          { s with files := (dst, files.flatMap fun f => (s.files.lookup f).getD []) :: s.files }
          = none := by
        apply (lookupErr_eq_none _ dst _).mpr
        refine ⟨hd, ?_⟩
        simp only [belowFile, List.any_cons, not_isPrefixOf_snoc, Bool.false_or] at hb ⊢
        exact hb
      simp [osStat, h1, List.lookup, errOf, os.IsNotExist]

end sim

/-! ## The archive path -/

/-- C1 (as stated, refuted): with the archive directory `/archives/` and the
identity `a`, `ArchivePath()` is `/archives/a.tar.gz`, not the plain
concatenation `/archives//a.tar.gz`; with an empty archive directory it is
`a.tar.gz`, not `/a.tar.gz`. -/
theorem ArchivePath_not_plain_concat :
    sim.archiver.ArchivePath (sim.env "/archives/") = "/archives/a.tar.gz" ∧
    sim.archiver.ArchivePath (sim.env "/archives/")
      ≠ "/archives/" ++ "/" ++ sim.archiver.Server.Id ++ ".tar.gz" ∧
    sim.archiver.ArchivePath (sim.env "") = "a.tar.gz" ∧
    sim.archiver.ArchivePath (sim.env "") ≠ "" ++ "/" ++ sim.archiver.Server.Id ++ ".tar.gz" := by
  decide

/-- C1 (amended): `ArchiveName()` is the identity followed by `.tar.gz`, and
`ArchivePath()` is `filepath.Join` of the archive directory and the archive
name, a function of the directory and the identity alone that takes no
filesystem state and returns no error. Whenever the directory is in cleaned
form, other than `/` and `.`, and the identity holds no path separator, the
path is exactly the directory, a separator, the identity and `.tar.gz`. -/
theorem ArchivePath_is_cleaned_join {σ : Type} (env : Env σ) (a : Archiver) :
    a.ArchiveName = a.Server.Id ++ ".tar.gz" ∧
    a.ArchivePath env = filepath.Join env.ArchiveDirectory (a.Server.Id ++ ".tar.gz") ∧
    (filepath.Clean env.ArchiveDirectory = env.ArchiveDirectory →
      env.ArchiveDirectory ≠ "/" → env.ArchiveDirectory ≠ "." →
      (∀ c ∈ a.Server.Id.data, c ≠ '/') →
      a.ArchivePath env = env.ArchiveDirectory ++ "/" ++ a.Server.Id ++ ".tar.gz") :=
  ⟨rfl, rfl, ArchivePath_of_clean env a⟩

/-- C1, an instance: the archive directory `/archives` and the identity `a`. -/
theorem ArchivePath_is_cleaned_join_witness :
    sim.archiver.ArchiveName = "a.tar.gz" ∧
    sim.archiver.ArchivePath (sim.env "/archives") = "/archives/a.tar.gz" :=
  ⟨(ArchivePath_is_cleaned_join (sim.env "/archives") sim.archiver).1,
   (ArchivePath_is_cleaned_join (sim.env "/archives") sim.archiver).2.2
     (by decide) (by decide) (by decide) (by decide)⟩

/-- C10 (as stated, refuted): the distinct identities `a` and `./a` share the
archive path `/archives/a.tar.gz`. -/
theorem ArchivePath_collision :
    ("a" : String) ≠ "./a" ∧
    Archiver.ArchivePath (sim.env "/archives")
        { Server := { Id := "a", Filesystem := { Path := "/srv/data" } } } =
      Archiver.ArchivePath (sim.env "/archives")
        { Server := { Id := "./a", Filesystem := { Path := "/srv/data" } } } := by
  decide

/-- C10 (amended): for every archive directory, two servers whose identities
hold no path separator and differ have different archive paths. -/
theorem ArchivePath_injective {σ : Type} (env : Env σ) (a1 a2 : Archiver)
    (h1 : ∀ c ∈ a1.Server.Id.data, c ≠ '/') (h2 : ∀ c ∈ a2.Server.Id.data, c ≠ '/')
    (hne : a1.Server.Id ≠ a2.Server.Id) :
    a1.ArchivePath env ≠ a2.ArchivePath env :=
  fun heq => hne (ArchivePath_inj env a1 a2 h1 h2 heq)

/-- C10, an instance: the identities `a` and `..` under `/archives/`. -/
theorem ArchivePath_injective_witness :
    Archiver.ArchivePath (sim.env "/archives/")
        { Server := { Id := "a", Filesystem := { Path := "/srv/data" } } } ≠
      Archiver.ArchivePath (sim.env "/archives/")
        { Server := { Id := "..", Filesystem := { Path := "/srv/data" } } } :=
  ArchivePath_injective (sim.env "/archives/")
    { Server := { Id := "a", Filesystem := { Path := "/srv/data" } } }
    { Server := { Id := "..", Filesystem := { Path := "/srv/data" } } }
    (by decide) (by decide) (by decide)

/-! ## The running hash -/

namespace sha256

theorem blockGeneric_short (n : Nat) (h p : List Nat) (hp : p.length < chunk) :
    blockGeneric n h p = h := by
  cases n with
  | zero => rfl
  | succ n => simp [blockGeneric, Nat.not_le.mpr hp]

/-- Fuel beyond the number of whole blocks changes nothing. -/
theorem blockGeneric_fuel (n : Nat) : ∀ (h p : List Nat), p.length / chunk ≤ n →
    blockGeneric n h p = blockGeneric (p.length / chunk) h p := by
  induction n with
  | zero =>
    intro h p hn
    have : p.length / chunk = 0 := Nat.le_zero.mp hn
    rw [this]
  | succ n ih =>
    intro h p hn
    by_cases hp : p.length ≥ chunk
    · have hdiv : p.length / chunk = (p.length - chunk) / chunk + 1 := by
        simp only [chunk] at hp ⊢; omega
      rw [hdiv]
      simp only [blockGeneric, hp, if_true]
      have hdl : (p.drop chunk).length = p.length - chunk := by simp
      rw [ih _ _ (by rw [hdl]; omega), hdl]
    · have hlt : p.length < chunk := Nat.not_le.mp hp
      rw [blockGeneric_short _ _ _ hlt, blockGeneric_short _ _ _ hlt]

/-- Whole blocks in front are hashed first. -/
theorem blockGeneric_append (k : Nat) : ∀ (h p1 p2 : List Nat), p1.length = chunk * k →
    blockGeneric ((p1 ++ p2).length / chunk) h (p1 ++ p2)
      = blockGeneric (p2.length / chunk) (blockGeneric (p1.length / chunk) h p1) p2 := by
  induction k with
  | zero =>
    intro h p1 p2 hl
    have : p1 = [] := List.length_eq_zero.mp (by simpa using hl)
    subst this
    simp [blockGeneric]
  | succ k ih =>
    intro h p1 p2 hl
    have h1 : p1.length ≥ chunk := by rw [hl]; simp only [chunk]; omega
    have h12 : (p1 ++ p2).length ≥ chunk := by simp; omega
    have hd1 : p1.length / chunk = (p1.drop chunk).length / chunk + 1 := by
      simp only [List.length_drop, chunk] at hl h1 ⊢; omega
    have hd12 : (p1 ++ p2).length / chunk = (p1.drop chunk ++ p2).length / chunk + 1 := by
      simp only [List.length_append, List.length_drop, chunk] at hl h1 ⊢; omega
    rw [hd12, hd1]
    simp only [blockGeneric, h12, h1, if_true]
    have ht : (p1 ++ p2).take chunk = p1.take chunk := by
      rw [List.take_append_of_le_length h1]
    have hdr : (p1 ++ p2).drop chunk = p1.drop chunk ++ p2 := by
      rw [List.drop_append_of_le_length h1]
    rw [ht, hdr]
    exact ih _ _ _ (by simp only [List.length_drop, hl, chunk]; omega)

/-- The bytes behind the last whole block are not hashed. -/
theorem blockGeneric_take (h p : List Nat) :
    blockGeneric (p.length / chunk) h p
      = blockGeneric ((p.take (p.length - p.length % chunk)).length / chunk) h
          (p.take (p.length - p.length % chunk)) := by
  have hsplit : p = p.take (p.length - p.length % chunk) ++ p.drop (p.length - p.length % chunk) :=
    (List.take_append_drop _ _).symm
  have hlen : (p.take (p.length - p.length % chunk)).length = chunk * (p.length / chunk) := by
    simp only [List.length_take, chunk]; omega
  conv_lhs => rw [hsplit]
  rw [blockGeneric_append (p.length / chunk) h _ _ hlen]
  apply blockGeneric_short
  simp only [List.length_drop, chunk]; omega

end sha256

namespace sha256

theorem blockGeneric_one (h p : List Nat) (hp : p.length = chunk) :
    blockGeneric 1 h p = compress h p := by
  simp [blockGeneric, hp, List.take_of_length_le (le_of_eq hp)]

theorem blocks_eq (d : digest) (p : List Nat) :
    d.blocks p =
      ({ d with h := blockGeneric (p.length / chunk) d.h p }, p.drop (p.length - p.length % chunk)) := by
  by_cases hp : p.length ≥ chunk
  · simp only [digest.blocks, hp, if_true, block]
    rw [← blockGeneric_take]
  · have hlt : p.length < chunk := Nat.not_le.mp hp
    have hmod : p.length % chunk = p.length := Nat.mod_eq_of_lt hlt
    simp [digest.blocks, hp, blockGeneric_short _ _ _ hlt, hmod]

theorem keep_of_empty (d : digest) (p : List Nat) (h : d.x = []) :
    d.keep p = { d with x := p } := by
  cases p with
  | nil => obtain ⟨dh, dx, dl⟩ := d; simp only at h; subst h; rfl
  | cons a p => simp [digest.keep]

theorem keep_nil (d : digest) : d.keep [] = d := by
  simp [digest.keep]

/-- Writing is hashing the whole blocks of buffer plus input and keeping the
rest in the buffer. -/
theorem Write_eq (d : digest) (p : List Nat) (hx : d.x.length < chunk) :
    d.Write p =
      { h := blockGeneric ((d.x ++ p).length / chunk) d.h (d.x ++ p),
        x := (d.x ++ p).drop ((d.x ++ p).length - (d.x ++ p).length % chunk),
        len := (d.len + p.length) % 2 ^ 64 } := by
  obtain ⟨h, x, len⟩ := d
  simp only at hx ⊢
  by_cases hx0 : x.length > 0
  · by_cases hfit : x.length + p.length < chunk
    · -- everything stays in the buffer
      have hmin : min (chunk - x.length) p.length = p.length := by omega
      have hmod : (x ++ p).length % chunk = (x ++ p).length := by
        simp only [List.length_append]; exact Nat.mod_eq_of_lt hfit
      have hdiv : (x ++ p).length / chunk = 0 := by
        simp only [List.length_append]; exact Nat.div_eq_of_lt hfit
      have hne : ¬ (x ++ p).length = chunk := by simp only [List.length_append]; omega
      have hfill : digest.fill { h := h, x := x, len := (len + p.length) % 2 ^ 64 } p
          = ({ h := h, x := x ++ p, len := (len + p.length) % 2 ^ 64 }, []) := by
        simp only [digest.fill, hx0, hmin, if_true, List.take_length, List.drop_length, hne,
          if_false]
      simp only [digest.Write, hfill, blocks_eq, List.drop_nil, keep_nil, hmod, hdiv]
      simp [blockGeneric]
    · -- the buffer fills up and is hashed
      have hmin : min (chunk - x.length) p.length = chunk - x.length := by omega
      have hlen1 : (x ++ p.take (chunk - x.length)).length = chunk := by
        simp only [List.length_append, List.length_take]; omega
      have hfill : digest.fill { h := h, x := x, len := (len + p.length) % 2 ^ 64 } p
          = ({ h := compress h (x ++ p.take (chunk - x.length)), x := [],
               len := (len + p.length) % 2 ^ 64 }, p.drop (chunk - x.length)) := by
        simp only [digest.fill, hx0, hmin, if_true, hlen1, block]
        have : chunk / chunk = 1 := by decide
        rw [this, blockGeneric_one _ _ hlen1]
      have hX : x ++ p = (x ++ p.take (chunk - x.length)) ++ p.drop (chunk - x.length) := by
        rw [List.append_assoc, List.take_append_drop]
      have hbg := blockGeneric_append 1 h (x ++ p.take (chunk - x.length))
        (p.drop (chunk - x.length)) (by rw [hlen1, Nat.mul_one])
      rw [← hX, hlen1] at hbg
      have h11 : chunk / chunk = 1 := by decide
      rw [h11, blockGeneric_one _ _ hlen1] at hbg
      simp only [digest.Write, hfill, blocks_eq]
      rw [keep_of_empty _ _ rfl, hbg]
      congr 1
      have hl : (x ++ p).length = chunk + (p.drop (chunk - x.length)).length := by
        simp only [List.length_append, List.length_drop]; omega
      have hmod : (x ++ p).length % chunk = (p.drop (chunk - x.length)).length % chunk := by
        rw [hl]; simp
      rw [hmod, hl]
      conv_rhs => rw [hX]
      have hge : (p.drop (chunk - x.length)).length % chunk ≤ (p.drop (chunk - x.length)).length :=
        Nat.mod_le _ _
      rw [List.drop_append_eq_append_drop, hlen1]
      have hz : (x ++ p.take (chunk - x.length)).drop
          (chunk + (p.drop (chunk - x.length)).length
            - (p.drop (chunk - x.length)).length % chunk) = [] := by
        apply List.drop_eq_nil_of_le; rw [hlen1]; omega
      rw [hz, List.nil_append]
      congr 1
      omega
  · have hx0' : x = [] := List.length_eq_zero.mp (by omega)
    subst hx0'
    have hfill : digest.fill { h := h, x := [], len := (len + p.length) % 2 ^ 64 } p
        = ({ h := h, x := [], len := (len + p.length) % 2 ^ 64 }, p) := by
      simp [digest.fill]
    simp only [digest.Write, hfill, blocks_eq]
    rw [keep_of_empty _ _ rfl]
    simp

end sha256

namespace sha256

theorem drop_append_blocks (P Y : List Nat) (hP : P.length % chunk = 0) :
    (P ++ Y).drop ((P ++ Y).length - (P ++ Y).length % chunk)
      = Y.drop (Y.length - Y.length % chunk) := by
  have hmod : (P ++ Y).length % chunk = Y.length % chunk := by
    simp only [List.length_append, chunk] at hP ⊢; omega
  have hge : Y.length % chunk ≤ Y.length := Nat.mod_le _ _
  have hidx : (P ++ Y).length - (P ++ Y).length % chunk
      = P.length + (Y.length - Y.length % chunk) := by
    rw [hmod]; simp only [List.length_append]; omega
  rw [hidx, List.drop_append]

/-- Two writes in a row are one write of the concatenation. -/
theorem Write_Write (d : digest) (a b : List Nat) (hx : d.x.length < chunk) :
    (d.Write a).Write b = d.Write (a ++ b) := by
  have hx1 : (d.Write a).x.length < chunk := by
    rw [Write_eq d a hx]
    simp only [List.length_drop, chunk]; omega
  rw [Write_eq (d.Write a) b hx1, Write_eq d (a ++ b) hx]
  rw [Write_eq d a hx]
  simp only
  generalize hXdef : d.x ++ a = X
  generalize hm : X.length - X.length % chunk = m
  have hX' : d.x ++ (a ++ b) = X.take m ++ (X.drop m ++ b) := by
    rw [← List.append_assoc, ← List.append_assoc, List.take_append_drop, ← hXdef]
  have htl : (X.take m).length = chunk * (X.length / chunk) := by
    simp only [List.length_take, ← hm, chunk]; omega
  have htm : (X.take m).length % chunk = 0 := by rw [htl]; simp
  have hdiv : X.length / chunk = (X.take m).length / chunk := by
    rw [htl]; simp [chunk]
  have hlen : (len : Nat) → (len + a.length) % 2 ^ 64 + b.length
      ≡ len + (a ++ b).length [MOD 2 ^ 64] := by
    intro len
    simp only [List.length_append, ← Nat.add_assoc]
    exact Nat.ModEq.add_right _ (Nat.mod_modEq _ _)
  rw [hX']
  congr 1
  · rw [blockGeneric_append (X.length / chunk) d.h _ _ htl]
    congr 1
    rw [← hm]
    exact blockGeneric_take d.h X
  · rw [drop_append_blocks _ _ htm]
  · exact hlen d.len

theorem Write_buffer_lt (d : digest) (p : List Nat) (hx : d.x.length < chunk) :
    (d.Write p).x.length < chunk := by
  rw [Write_eq d p hx]
  simp only [List.length_drop, chunk]; omega

/-- Feeding a digest chunk by chunk is feeding it the concatenation. -/
theorem foldl_Write (chunks : List (List Nat)) : ∀ (d : digest) (a : List Nat),
    d.x.length < chunk →
    chunks.foldl digest.Write (d.Write a) = d.Write (a ++ chunks.flatten) := by
  induction chunks with
  | nil => intro d a _; simp
  | cons c cs ih =>
    intro d a hx
    simp only [List.foldl_cons, List.flatten_cons]
    rw [Write_Write d a c hx, ih d (a ++ c) hx, List.append_assoc]

theorem New_Write_nil : New.Write [] = New := by
  rw [Write_eq New [] (by decide)]
  rfl

theorem wf_New : wf New := by
  constructor <;> decide

theorem wf_lt (d : digest) (h : wf d) : d.x.length < chunk := by
  rw [h.1]; exact Nat.mod_lt _ (by decide)

theorem wf_Write (d : digest) (p : List Nat) (h : wf d) : wf (d.Write p) := by
  rw [Write_eq d p (wf_lt d h)]
  obtain ⟨h1, h2⟩ := h
  constructor
  · simp only [List.length_drop, List.length_append, chunk] at h1 ⊢
    omega
  · exact Nat.mod_lt _ (by decide)

theorem Write_nil (d : digest) (h : wf d) : d.Write [] = d := by
  rw [Write_eq d [] (wf_lt d h)]
  obtain ⟨dh, dx, dl⟩ := d
  obtain ⟨h1, h2⟩ := h
  simp only at h1 h2
  have hlt : dx.length < chunk := by rw [h1]; exact Nat.mod_lt _ (by decide)
  simp only [List.append_nil, List.length_nil, Nat.add_zero, Nat.mod_eq_of_lt h2,
    Nat.mod_eq_of_lt hlt, Nat.sub_self, List.drop_zero, Nat.div_eq_of_lt hlt, blockGeneric]

end sha256

namespace sha256

theorem checkSum_length (d : digest) : d.checkSum.length = Size := by
  simp [digest.checkSum, List.range_succ, binary.PutUint32, Size, List.flatMap]

/-- After the padding no byte stays buffered: the panic of `checkSum` is
unreachable. -/
theorem checkSum_buffer_empty (d : digest) (h : wf d) :
    (((if d.len % 64 < 56 then
          d.Write ((0x80 :: List.replicate 63 0).take (56 - d.len % 64))
        else d.Write ((0x80 :: List.replicate 63 0).take (64 + 56 - d.len % 64))).Write
      (binary.PutUint64 ((d.len <<< 3) % 2 ^ 64))).x = []) := by
  have key : ∀ p : List Nat, (d.len + p.length + 8) % 64 = 0 →
      ((d.Write p).Write (binary.PutUint64 ((d.len <<< 3) % 2 ^ 64))).x = [] := by
    intro p hp
    have hw := wf_Write (d.Write p) (binary.PutUint64 ((d.len <<< 3) % 2 ^ 64)) (wf_Write d p h)
    have h1 := hw.1
    have hlen : ((d.Write p).Write (binary.PutUint64 ((d.len <<< 3) % 2 ^ 64))).len
        = ((d.len + p.length) % 2 ^ 64 + 8) % 2 ^ 64 := by
      rw [Write_eq _ _ (wf_lt _ (wf_Write d p h)), Write_eq d p (wf_lt d h)]
      rfl
    rw [hlen] at h1
    apply List.length_eq_zero.mp
    rw [h1]
    simp only [chunk]
    omega
  split
  · apply key
    simp only [List.length_take, List.length_cons, List.length_replicate]
    omega
  · apply key
    simp only [List.length_take, List.length_cons, List.length_replicate]
    omega

end sha256

namespace hex

theorem hextable_getD_mem (i : Nat) : hextable.getD i '0' ∈ hextable := by
  by_cases hi : i < 16
  · interval_cases i <;> decide
  · have : hextable.length ≤ i := by
      have : hextable.length = 16 := rfl
      omega
    rw [List.getD_eq_default _ _ this]
    decide

theorem EncodeToString_data_length (src : List Nat) :
    (EncodeToString src).data.length = 2 * src.length := by
  simp only [EncodeToString]
  induction src with
  | nil => rfl
  | cons v vs ih => simp only [List.flatMap_cons, List.length_append, ih, List.length_cons,
      List.length_nil]; omega

theorem EncodeToString_mem (src : List Nat) :
    ∀ c ∈ (EncodeToString src).data, c ∈ hextable := by
  intro c hc
  simp only [EncodeToString, List.mem_flatMap, List.mem_cons, List.mem_singleton,
    List.not_mem_nil, or_false] at hc
  obtain ⟨v, _, h | h⟩ := hc <;> subst h <;> exact hextable_getD_mem _

theorem hextable_lower :
    ∀ c ∈ hextable, ('0' ≤ c ∧ c ≤ '9') ∨ ('a' ≤ c ∧ c ≤ 'f') := by
  decide

end hex

namespace io

/-- Copying a file that reads without error feeds all of its bytes to the
digest, whatever the sizes of the reads. -/
theorem copyBuffer_ok (n : Nat) (hn : 0 < n) : ∀ (fuel : Nat) (dst : sha256.digest) (src : os.File)
    (written : Nat), src.fault = none → sha256.wf dst → src.data.length < fuel →
    ∃ src1, copyBuffer fuel dst src n written
      = some (written + src.data.length, none, dst.Write src.data, src1) := by
  intro fuel
  induction fuel with
  | zero => intro dst src written _ _ hf; omega
  | succ fuel ih =>
    intro dst src written hfault hwf hf
    obtain ⟨name, data, short, fault⟩ := src
    simp only at hfault hf
    subst hfault
    have hn0 : n ≠ 0 := by omega
    cases data with
    | nil =>
      refine ⟨{ name := name, data := [], short := short, fault := none }, ?_⟩
      simp only [copyBuffer, os.File.Read, hn0, if_false, List.length_nil, Nat.lt_irrefl,
        Option.getD_none, ne_eq, not_true_eq_false, Nat.add_zero, sha256.Write_nil dst hwf]
    | cons b bs =>
      simp only [copyBuffer, os.File.Read, hn0, if_false]
      set k := max 1 (min n (short.headD n)) with hk
      have hk1 : 1 ≤ k := le_max_left _ _
      have hpos : ((b :: bs).take k).length > 0 := by
        simp only [List.length_take, List.length_cons]; omega
      simp only [hpos, if_true]
      have hlen : ((b :: bs).drop k).length < fuel := by
        simp only [List.length_drop, List.length_cons] at hf ⊢; omega
      obtain ⟨src1, h1⟩ := ih (dst.Write ((b :: bs).take k))
        { name := name, data := (b :: bs).drop k, short := short.tail, fault := none }
        (written + ((b :: bs).take k).length) rfl (sha256.wf_Write _ _ hwf) hlen
      refine ⟨src1, ?_⟩
      rw [h1, sha256.Write_Write _ _ _ (sha256.wf_lt _ hwf), List.take_append_drop]
      simp only [List.length_take, List.length_drop, List.length_cons]
      congr 2
      omega

end io

set_option maxRecDepth 100000 in
/-- The model agrees with the published test vectors for the empty input and
for `abc`. -/
theorem Sum256_test_vectors :
    hex.EncodeToString (sha256.Sum256 [])
      = "e3b0c44298fc1c149afbf4c8996fb92427ae41e4649b934ca495991b7852b855" ∧
    hex.EncodeToString (sha256.Sum256 [97, 98, 99])
      = "ba7816bf8f01cfea414140de5dae2223b00361a396177a9cb410ff61f20015ad" := by
  decide

/-! ## `Checksum` -/

theorem CopyBuffer_ok (dst : sha256.digest) (src : os.File) (n : Nat) (hn : 0 < n)
    (hfault : src.fault = none) (hwf : sha256.wf dst) :
    ∃ src1, io.CopyBuffer dst src n
      = some (src.data.length, none, dst.Write src.data, src1) := by
  obtain ⟨src1, h⟩ := io.copyBuffer_ok n hn (src.data.length + 1) dst src 0 hfault hwf
    (Nat.lt_succ_self _)
  exact ⟨src1, by simpa [io.CopyBuffer] using h⟩

/-- The copy loop always leaves with a result: the fuel never runs out. -/
theorem copyBuffer_isSome (n : Nat) (hn : 0 < n) : ∀ (fuel : Nat) (dst : sha256.digest)
    (src : os.File) (written : Nat), src.data.length < fuel →
    (io.copyBuffer fuel dst src n written).isSome = true := by
  intro fuel
  induction fuel with
  | zero => intro dst src written hf; omega
  | succ fuel ih =>
    intro dst src written hf
    obtain ⟨name, data, short, fault⟩ := src
    have hn0 : n ≠ 0 := by omega
    cases data with
    | nil =>
      simp only [io.copyBuffer, os.File.Read, hn0, if_false]
      split <;> rfl
    | cons b bs =>
      simp only [io.copyBuffer, os.File.Read, hn0, if_false]
      apply ih
      simp only [List.length_drop, List.length_cons] at hf ⊢
      have : 1 ≤ max 1 (min n (short.headD n)) := le_max_left _ _
      omega

theorem CopyBuffer_isSome (dst : sha256.digest) (src : os.File) :
    (io.CopyBuffer dst src (1024 * 4)).isSome = true :=
  copyBuffer_isSome (1024 * 4) (by decide) _ dst src 0 (Nat.lt_succ_self _)


theorem Sum_nil (d : sha256.digest) : d.Sum [] = d.checkSum :=
  List.nil_append _

theorem Checksum_of_open {σ : Type} (env : Env σ) (a : Archiver) (w : World σ) (file : os.File)
    (hopen : env.Open (a.ArchivePath env) w.fs = .ok file) (hread : file.fault = none) :
    a.Checksum env w =
      some ((hex.EncodeToString (sha256.Sum256 file.data), none),
        (w.record (.Open (a.ArchivePath env))).record (.Close (a.ArchivePath env))) := by
  obtain ⟨src1, h⟩ := CopyBuffer_ok sha256.New file (1024 * 4) (by decide) hread sha256.wf_New
  unfold Archiver.Checksum
  rw [hopen]
  simp only []
  rw [h]
  simp only []
  rw [Sum_nil, sha256.Sum256]

/-- C5: when the archive opens and reads without error, whatever its length
and whatever the sizes of the reads, `Checksum()` returns no error and the
lower-case hexadecimal form of `sha256.Sum256` of the whole content: 64
characters, each a digit or a letter from `a` to `f`. A digest fed in chunks
of any sizes gives the checksum of the concatenation. -/
theorem Checksum_is_hex_sha256 {σ : Type} (env : Env σ) (a : Archiver) (w : World σ)
    (file : os.File)
    (hopen : env.Open (a.ArchivePath env) w.fs = .ok file) (hread : file.fault = none) :
    (∃ w1, a.Checksum env w = some ((hex.EncodeToString (sha256.Sum256 file.data), none), w1)) ∧
    (hex.EncodeToString (sha256.Sum256 file.data)).length = 64 ∧
    (∀ c ∈ (hex.EncodeToString (sha256.Sum256 file.data)).data,
      ('0' ≤ c ∧ c ≤ '9') ∨ ('a' ≤ c ∧ c ≤ 'f')) ∧
    (∀ chunks : List (List Nat),
      (chunks.foldl sha256.digest.Write sha256.New).checkSum = sha256.Sum256 chunks.flatten) := by
  refine ⟨⟨_, Checksum_of_open env a w file hopen hread⟩, ?_, ?_, ?_⟩
  · show (hex.EncodeToString (sha256.Sum256 file.data)).data.length = 64
    rw [hex.EncodeToString_data_length, sha256.Sum256, sha256.checkSum_length]
    rfl
  · intro c hc
    exact hex.hextable_lower c (hex.EncodeToString_mem _ c hc)
  · intro chunks
    have h := sha256.foldl_Write chunks sha256.New [] (by decide)
    rw [sha256.New_Write_nil] at h
    rw [h, List.nil_append, sha256.Sum256]

/-- C5, an instance: the archive of `sim.archived` holds the bytes 1, 2, 3. -/
theorem Checksum_is_hex_sha256_witness :
    (sim.env "/archives").Open (sim.archiver.ArchivePath (sim.env "/archives")) sim.archived
      = .ok { name := "/archives/a.tar.gz", data := [1, 2, 3], short := [], fault := none } ∧
    (∃ w1, sim.archiver.Checksum (sim.env "/archives") ⟨sim.archived, []⟩
      = some ((hex.EncodeToString (sha256.Sum256 [1, 2, 3]), none), w1)) :=
  ⟨rfl,
   (Checksum_is_hex_sha256 (sim.env "/archives") sim.archiver ⟨sim.archived, []⟩
     { name := "/archives/a.tar.gz", data := [1, 2, 3], short := [], fault := none }
     rfl rfl).1⟩

/-- `Checksum()` returns, changes nothing in the filesystem, and its result
depends on the filesystem alone. -/
theorem Checksum_total {σ : Type} (env : Env σ) (a : Archiver) (w : World σ) :
    ∃ r calls, (∀ c ∈ calls, c = Call.Open (a.ArchivePath env) ∨ c = Call.Close (a.ArchivePath env)) ∧
      ∀ w0 : World σ, w0.fs = w.fs →
        a.Checksum env w0 = some (r, { fs := w.fs, calls := w0.calls ++ calls }) := by
  cases hopen : env.Open (a.ArchivePath env) w.fs with
  | error err =>
    refine ⟨("", some err), [.Open (a.ArchivePath env)], by simp, ?_⟩
    intro w0 h0
    simp [Archiver.Checksum, h0, hopen, World.record]
  | ok file =>
    have hsome := CopyBuffer_isSome sha256.New file
    cases hcopy : io.CopyBuffer sha256.New file (1024 * 4) with
    | none => rw [hcopy] at hsome; simp at hsome
    | some res =>
      obtain ⟨written, err, hash1, src1⟩ := res
      cases err with
      | some e =>
        refine ⟨("", some e), [.Open (a.ArchivePath env), .Close (a.ArchivePath env)], by simp, ?_⟩
        intro w0 h0
        simp [Archiver.Checksum, h0, hopen, hcopy, World.record]
      | none =>
        refine ⟨(hex.EncodeToString (hash1.Sum []), none),
          [.Open (a.ArchivePath env), .Close (a.ArchivePath env)], by simp, ?_⟩
        intro w0 h0
        simp [Archiver.Checksum, h0, hopen, hcopy, World.record]

/-- C6 (as stated, refuted): in `sim.hidden` no file and no directory exists
at the archive path, and the path may not be accessed. `Checksum()` returns
the empty string with the "permission denied" error of `os.Open`, for which
`os.IsNotExist` does not hold. -/
theorem Checksum_permission_denied_without_archive :
    sim.archiver.ArchivePath (sim.env "/archives") = "/archives/a.tar.gz" ∧
    sim.hidden.files.lookup "/archives/a.tar.gz" = none ∧
    sim.hidden.dirs.lookup "/archives/a.tar.gz" = none ∧
    (sim.archiver.Checksum (sim.env "/archives") ⟨sim.hidden, []⟩).map (fun r => r.1) =
      some ("", some (.PathError "open" "/archives/a.tar.gz" (.Errno .EACCES))) ∧
    os.IsNotExist (some (.PathError "open" "/archives/a.tar.gz" (.Errno .EACCES))) = false := by
  decide

/-- C6 (amended): when `os.Open` of the archive fails, `Checksum()` returns the
empty string together with exactly the error of `os.Open`. That error is a
"not found" error (one for which `os.IsNotExist` holds) in every state in
which `os.Stat` of the archive path reports "not found", where opening a path
that the stat reports as not found reports the same; for a missing file
behind a path that cannot be accessed it is the access error. In every state
`Checksum()` returns, makes no call other than opening and closing the
archive, leaves the filesystem as it was, and a second call returns the same
result. -/
theorem Checksum_absent_and_readonly {σ : Type} (env : Env σ) (a : Archiver) (w : World σ) :
    (∀ err, env.Open (a.ArchivePath env) w.fs = .error err →
      a.Checksum env w = some (("", some err), w.record (.Open (a.ArchivePath env)))) ∧
    (env.OpenCoherent → os.IsNotExist (errOf (env.Stat (a.ArchivePath env) w.fs)) = true →
      ∃ err, a.Checksum env w = some (("", some err), w.record (.Open (a.ArchivePath env))) ∧
        os.IsNotExist (some err) = true) ∧
    (∃ r w1, a.Checksum env w = some (r, w1) ∧ w1.fs = w.fs ∧
      (∀ c ∈ w1.calls, c ∈ w.calls ∨ c = Call.Open (a.ArchivePath env) ∨
        c = Call.Close (a.ArchivePath env)) ∧
      ∃ w2, a.Checksum env w1 = some (r, w2) ∧ w2.fs = w.fs) := by
  have hfail : ∀ err, env.Open (a.ArchivePath env) w.fs = .error err →
      a.Checksum env w = some (("", some err), w.record (.Open (a.ArchivePath env))) := by
    intro err ho
    simp [Archiver.Checksum, ho]
  refine ⟨hfail, ?_, ?_⟩
  · intro hopen habs
    have h := hopen (a.ArchivePath env) w.fs habs
    cases ho : env.Open (a.ArchivePath env) w.fs with
    | ok file => rw [ho] at h; simp [errOf, os.IsNotExist] at h
    | error err =>
      rw [ho] at h
      exact ⟨err, hfail err ho, h⟩
  · obtain ⟨r, calls, hcalls, hall⟩ := Checksum_total env a w
    refine ⟨r, _, hall w rfl, rfl, ?_, _, hall _ rfl, rfl⟩
    intro c hc
    rcases List.mem_append.mp hc with h | h
    · exact Or.inl h
    · exact Or.inr (hcalls c h)

/-- C6, instances: no archive in `sim.fresh`, where the stat reports "not
found"; and no archive in `sim.hidden`, where the path may not be accessed. -/
theorem Checksum_absent_and_readonly_witness :
    os.IsNotExist (errOf ((sim.env "/archives").Stat
      (sim.archiver.ArchivePath (sim.env "/archives")) sim.fresh)) = true ∧
    (∃ err, sim.archiver.Checksum (sim.env "/archives") ⟨sim.fresh, []⟩
        = some (("", some err), World.record ⟨sim.fresh, []⟩ (.Open "/archives/a.tar.gz")) ∧
      os.IsNotExist (some err) = true) ∧
    sim.archiver.Checksum (sim.env "/archives") ⟨sim.hidden, []⟩
      = some (("", some (.PathError "open" "/archives/a.tar.gz" (.Errno .EACCES))),
          World.record ⟨sim.hidden, []⟩ (.Open "/archives/a.tar.gz")) :=
  ⟨rfl,
   (Checksum_absent_and_readonly (sim.env "/archives") sim.archiver ⟨sim.fresh, []⟩).2.1
     (sim.env_OpenCoherent "/archives") rfl,
   (Checksum_absent_and_readonly (sim.env "/archives") sim.archiver ⟨sim.hidden, []⟩).1 _ rfl⟩

/-! ## `Archive`, `DeleteIfExists` and `Exists` -/

/-- The loop over the directory entries when every entry is accepted. -/
theorem archiveFiles_ok {σ : Type} (env : Env σ) (path : String) :
    ∀ (children : List os.FileInfo) (paths files : List String) (w : World σ),
      List.Forall₂ (fun c p => env.SafeJoin path c w.fs = .ok p) children paths →
      Archiver.archiveFiles env path children files w =
        (.ok (files ++ paths),
         { fs := w.fs, calls := w.calls ++ children.map (Call.SafeJoin path) }) := by
  intro children
  induction children with
  | nil =>
    intro paths files w h
    cases h
    simp [Archiver.archiveFiles]
  | cons c cs ih =>
    intro paths files w h
    cases h with
    | cons hc hcs =>
      rename_i p ps
      simp only [Archiver.archiveFiles, hc]
      rw [ih ps (files ++ [p]) (w.record (.SafeJoin path c)) hcs]
      simp [World.record]

/-- The loop over the directory entries when an entry is rejected: it stops
at the first one. -/
theorem archiveFiles_error {σ : Type} (env : Env σ) (path : String) :
    ∀ (pre : List os.FileInfo) (file : os.FileInfo) (post : List os.FileInfo) (err : error)
      (files : List String) (w : World σ),
      (∀ f ∈ pre, errOf (env.SafeJoin path f w.fs) = none) →
      env.SafeJoin path file w.fs = .error err →
      Archiver.archiveFiles env path (pre ++ file :: post) files w =
        (.error err,
         { fs := w.fs, calls := w.calls ++ (pre ++ [file]).map (Call.SafeJoin path) }) := by
  intro pre
  induction pre with
  | nil =>
    intro file post err files w _ hbad
    simp [Archiver.archiveFiles, hbad, World.record]
  | cons c cs ih =>
    intro file post err files w hpre hbad
    have hc := hpre c (by simp)
    cases hj : env.SafeJoin path c w.fs with
    | error e => rw [hj] at hc; simp [errOf] at hc
    | ok p =>
      have hstep : Archiver.archiveFiles env path (c :: (cs ++ file :: post)) files w
          = Archiver.archiveFiles env path (cs ++ file :: post) (files ++ [p])
              (w.record (.SafeJoin path c)) := by
        simp only [Archiver.archiveFiles, hj]
      rw [List.cons_append, hstep, ih file post err (files ++ [p]) (w.record (.SafeJoin path c))
        (fun f hf => hpre f (by simp [hf])) hbad]
      simp [World.record]

/-- A list with a rejected entry splits at the first rejected one. -/
theorem first_rejected {σ : Type} (env : Env σ) (path : String) (s : σ) :
    ∀ (l : List os.FileInfo), (∃ f ∈ l, errOf (env.SafeJoin path f s) ≠ none) →
      ∃ pre file post err, l = pre ++ file :: post ∧
        (∀ f ∈ pre, errOf (env.SafeJoin path f s) = none) ∧
        env.SafeJoin path file s = .error err := by
  intro l
  induction l with
  | nil => rintro ⟨f, hf, _⟩; simp at hf
  | cons c cs ih =>
    rintro ⟨f, hf, hbad⟩
    cases hj : env.SafeJoin path c s with
    | error e => exact ⟨[], c, cs, e, rfl, by simp, hj⟩
    | ok p =>
      have hfc : f ∈ cs := by
        rcases List.mem_cons.mp hf with h | h
        · subst h; rw [hj] at hbad; simp [errOf] at hbad
        · exact h
      obtain ⟨pre, file, post, err, hl, hpre, herr⟩ := ih ⟨f, hfc, hbad⟩
      refine ⟨c :: pre, file, post, err, by rw [hl]; rfl, ?_, herr⟩
      intro g hg
      rcases List.mem_cons.mp hg with h | h
      · subst h; rw [hj]; rfl
      · exact hpre g h

theorem Archive_rejected {σ : Type} (env : Env σ) (a : Archiver) (w : World σ)
    (children : List os.FileInfo)
    (hlist : env.ReadDir a.Server.Filesystem.Path w.fs = .ok children)
    (hbad : ∃ f ∈ children, errOf (env.SafeJoin a.Server.Filesystem.Path f w.fs) ≠ none) :
    ∃ pre file post err, children = pre ++ file :: post ∧
      (∀ f ∈ pre, errOf (env.SafeJoin a.Server.Filesystem.Path f w.fs) = none) ∧
      env.SafeJoin a.Server.Filesystem.Path file w.fs = .error err ∧
      a.Archive env w =
        (some err,
         { fs := w.fs,
           calls := w.calls ++ Call.ReadDir a.Server.Filesystem.Path ::
             (pre ++ [file]).map (Call.SafeJoin a.Server.Filesystem.Path) }) := by
  obtain ⟨pre, file, post, err, hl, hpre, herr⟩ := first_rejected env _ w.fs children hbad
  refine ⟨pre, file, post, err, hl, hpre, herr, ?_⟩
  simp only [Archiver.Archive, hlist, hl]
  rw [archiveFiles_error env _ pre file post err [] (w.record (.ReadDir a.Server.Filesystem.Path))
    hpre herr]
  simp [World.record]

theorem Exists_eq {σ : Type} (env : Env σ) (a : Archiver) (w : World σ) :
    a.Exists env w =
      (!os.IsNotExist (errOf (env.Stat (a.ArchivePath env) w.fs)),
       w.record (.Stat (a.ArchivePath env))) := by
  simp only [Archiver.Exists]
  split <;> simp_all

/-- What `Archive` does once the directory is listed and every entry joined. -/
theorem Archive_joined {σ : Type} (env : Env σ) (a : Archiver) (w : World σ)
    (children : List os.FileInfo) (paths : List String)
    (hlist : env.ReadDir a.Server.Filesystem.Path w.fs = .ok children)
    (hjoin : List.Forall₂ (fun c p => env.SafeJoin a.Server.Filesystem.Path c w.fs = .ok p)
      children paths) :
    a.Archive env w =
      match env.unsafeStat (a.ArchivePath env) w.fs with
      | .error err =>
        if !os.IsNotExist (some err) then
          (some err, ⟨w.fs, w.calls ++ a.prelude env children⟩)
        else
          ((env.TarGzArchive paths (a.ArchivePath env) w.fs).1,
           ⟨(env.TarGzArchive paths (a.ArchivePath env) w.fs).2,
            w.calls ++ a.prelude env children ++ [.TarGzArchive paths (a.ArchivePath env)]⟩)
      | .ok _ =>
        match (env.Remove (a.ArchivePath env) w.fs).1 with
        | some err =>
          (some err, ⟨(env.Remove (a.ArchivePath env) w.fs).2,
            w.calls ++ a.prelude env children ++ [.Remove (a.ArchivePath env)]⟩)
        | none =>
          ((env.TarGzArchive paths (a.ArchivePath env) (env.Remove (a.ArchivePath env) w.fs).2).1,
           ⟨(env.TarGzArchive paths (a.ArchivePath env) (env.Remove (a.ArchivePath env) w.fs).2).2,
            w.calls ++ a.prelude env children ++
              [.Remove (a.ArchivePath env), .TarGzArchive paths (a.ArchivePath env)]⟩) := by
  simp only [Archiver.Archive, hlist]
  rw [archiveFiles_ok env _ children paths [] (w.record (.ReadDir a.Server.Filesystem.Path))
    (by simpa [World.record] using hjoin)]
  simp only [Archiver.Stat, World.record, List.nil_append, Archiver.prelude]
  cases hs : env.unsafeStat (a.ArchivePath env) w.fs with
  | error err =>
    simp only
    split <;> simp [World.TarGzArchive]
  | ok st =>
    simp only [World.Remove]
    cases hr : (env.Remove (a.ArchivePath env) w.fs).1 with
    | some e => simp
    | none => simp [World.TarGzArchive]

/-- C2 (as stated, refuted): in `sim.locked` the stat of the archive path
fails with "permission denied", and `Exists()` returns true. -/
theorem Exists_true_on_permission_denied :
    errOf ((sim.env "/archives").Stat (sim.archiver.ArchivePath (sim.env "/archives")) sim.locked)
      = some (.PathError "stat" "/archives/a.tar.gz" (.Errno .EACCES)) ∧
    (sim.archiver.Exists (sim.env "/archives") ⟨sim.locked, []⟩).1 = true := by
  decide

/-- C2 (amended): `Exists()` returns false exactly when the stat of
`ArchivePath()` fails with a "not found" error: it returns true when the stat
succeeds and when it fails with any other error. It changes nothing in the
filesystem. -/
theorem Exists_false_iff_not_found {σ : Type} (env : Env σ) (a : Archiver) (w : World σ) :
    ((a.Exists env w).1 = false ↔
      os.IsNotExist (errOf (env.Stat (a.ArchivePath env) w.fs)) = true) ∧
    (errOf (env.Stat (a.ArchivePath env) w.fs) = none → (a.Exists env w).1 = true) ∧
    (∀ err, env.Stat (a.ArchivePath env) w.fs = .error err →
      os.IsNotExist (some err) = false → (a.Exists env w).1 = true) ∧
    (a.Exists env w).2.fs = w.fs := by
  rw [Exists_eq]
  refine ⟨by simp, ?_, ?_, rfl⟩
  · intro h; simp [h, os.IsNotExist]
  · intro err h1 h2; simp [h1, errOf, h2]

/-- C2, instances: the archive present, absent, and not accessible. -/
theorem Exists_false_iff_not_found_witness :
    (sim.archiver.Exists (sim.env "/archives") ⟨sim.archived, []⟩).1 = true ∧
    (sim.archiver.Exists (sim.env "/archives") ⟨sim.fresh, []⟩).1 = false ∧
    (sim.archiver.Exists (sim.env "/archives") ⟨sim.locked, []⟩).1 = true :=
  ⟨(Exists_false_iff_not_found (sim.env "/archives") sim.archiver ⟨sim.archived, []⟩).2.1 rfl,
   (Exists_false_iff_not_found (sim.env "/archives") sim.archiver ⟨sim.fresh, []⟩).1.2 rfl,
   (Exists_false_iff_not_found (sim.env "/archives") sim.archiver ⟨sim.locked, []⟩).2.2.1
     _ rfl rfl⟩

/-- C3 (as stated, refuted): in `sim.linked` the data directory holds the
link `evil -> /etc` and an archive exists. `Archive()` returns the error of
the path resolver and calls neither `os.Remove` nor the compression, and
the archive is still there, unchanged, when the call returns. -/
theorem Archive_rejected_keeps_archive :
    (sim.archiver.Archive (sim.env "/archives") ⟨sim.linked, []⟩).1
      = some sim.InvalidPathResolution ∧
    (sim.archiver.Archive (sim.env "/archives") ⟨sim.linked, []⟩).2.fs = sim.linked ∧
    (sim.archiver.Exists (sim.env "/archives")
      (sim.archiver.Archive (sim.env "/archives") ⟨sim.linked, []⟩).2).1 = true ∧
    sim.linked.files.lookup "/archives/a.tar.gz" = some [1, 2, 3] := by
  decide

/-- C3 (amended): when the listing of the data directory succeeds and
`SafeJoin` rejects some entry, `Archive()` returns the error of the first
rejected entry in listing order, having called nothing but `ReadDir` and
`SafeJoin` up to that entry: no stat, no `os.Remove`, no compression. The
filesystem is as it was, so an archive that existed before the call is still
there. -/
theorem Archive_rejected_entry {σ : Type} (env : Env σ) (a : Archiver) (w : World σ)
    (children : List os.FileInfo)
    (hlist : env.ReadDir a.Server.Filesystem.Path w.fs = .ok children)
    (hbad : ∃ f ∈ children, errOf (env.SafeJoin a.Server.Filesystem.Path f w.fs) ≠ none) :
    ∃ pre file post err, children = pre ++ file :: post ∧
      (∀ f ∈ pre, errOf (env.SafeJoin a.Server.Filesystem.Path f w.fs) = none) ∧
      env.SafeJoin a.Server.Filesystem.Path file w.fs = .error err ∧
      a.Archive env w =
        (some err,
         { fs := w.fs,
           calls := w.calls ++ Call.ReadDir a.Server.Filesystem.Path ::
             (pre ++ [file]).map (Call.SafeJoin a.Server.Filesystem.Path) }) :=
  Archive_rejected env a w children hlist hbad

/-- C3, an instance: `sim.linked`, where the second entry is rejected. -/
theorem Archive_rejected_entry_witness :
    ∃ pre file post err,
      [({ Name := "a.txt", Size := 5, IsDir := false, IsSymlink := false } : os.FileInfo),
       { Name := "evil", Size := 4, IsDir := false, IsSymlink := true }] = pre ++ file :: post ∧
      (∀ f ∈ pre, errOf ((sim.env "/archives").SafeJoin "/srv/data" f sim.linked) = none) ∧
      (sim.env "/archives").SafeJoin "/srv/data" file sim.linked = .error err ∧
      sim.archiver.Archive (sim.env "/archives") ⟨sim.linked, []⟩ =
        (some err,
         { fs := sim.linked,
           calls := [] ++ Call.ReadDir "/srv/data" ::
             (pre ++ [file]).map (Call.SafeJoin "/srv/data") }) :=
  Archive_rejected_entry (sim.env "/archives") sim.archiver ⟨sim.linked, []⟩ _ rfl
    ⟨{ Name := "evil", Size := 4, IsDir := false, IsSymlink := true }, by decide, by decide⟩

theorem DeleteIfExists_eq {σ : Type} (env : Env σ) (a : Archiver) (w : World σ) :
    a.DeleteIfExists env w =
      match env.unsafeStat (a.ArchivePath env) w.fs with
      | .error err =>
        (if !os.IsNotExist (some err) then some err else none,
         ⟨w.fs, w.calls ++ [.unsafeStat (a.ArchivePath env)]⟩)
      | .ok _ =>
        ((env.Remove (a.ArchivePath env) w.fs).1,
         ⟨(env.Remove (a.ArchivePath env) w.fs).2,
          w.calls ++ [.unsafeStat (a.ArchivePath env), .Remove (a.ArchivePath env)]⟩) := by
  simp only [Archiver.DeleteIfExists, Archiver.Stat, World.record, World.Remove]
  cases env.unsafeStat (a.ArchivePath env) w.fs with
  | error err => simp only; split <;> rfl
  | ok st =>
    simp only
    cases (env.Remove (a.ArchivePath env) w.fs).1 <;> simp

/-- After a `DeleteIfExists()` that returned no error the archive is absent. -/
theorem DeleteIfExists_absent {σ : Type} (env : Env σ) (a : Archiver) (w : World σ)
    (hrm : env.RemoveUnlinks) (hco : env.StatCoherent)
    (hok : (a.DeleteIfExists env w).1 = none) :
    a.Absent env (a.DeleteIfExists env w).2.fs := by
  rw [DeleteIfExists_eq] at hok ⊢
  cases hs : env.unsafeStat (a.ArchivePath env) w.fs with
  | error err =>
    rw [hs] at hok
    simp only at hok ⊢
    have h1 : os.IsNotExist (some err) = true := by
      cases h : os.IsNotExist (some err) with
      | true => rfl
      | false => simp [h] at hok
    have h2 := hco (a.ArchivePath env) w.fs
    rw [hs] at h2
    show os.IsNotExist (errOf (env.Stat (a.ArchivePath env) w.fs)) = true
    rw [← h2]; exact h1
  | ok st =>
    rw [hs] at hok
    simp only at hok ⊢
    exact hrm _ _ hok

/-- `DeleteIfExists()` of an absent archive: no error, nothing changed. -/
theorem DeleteIfExists_of_absent {σ : Type} (env : Env σ) (a : Archiver) (w : World σ)
    (habs : os.IsNotExist (errOf (env.unsafeStat (a.ArchivePath env) w.fs)) = true) :
    (a.DeleteIfExists env w).1 = none ∧ (a.DeleteIfExists env w).2.fs = w.fs := by
  rw [DeleteIfExists_eq]
  cases hs : env.unsafeStat (a.ArchivePath env) w.fs with
  | error err =>
    rw [hs] at habs
    simp only [errOf] at habs
    simp [habs]
  | ok st => rw [hs] at habs; simp [errOf, os.IsNotExist] at habs

/-- C4: `DeleteIfExists()` is idempotent. When the stat of the archive
reports "not found" it returns no error and leaves the filesystem unchanged.
When a first call returns no error, the archive is absent afterwards (the
stat of the archive and `os.Stat` report "not found"), and a second call
returns no error and changes nothing; this second half holds in an
environment where a successful `os.Remove` removes the file and where the
metadata provider and `os.Stat` agree on "not found". -/
theorem DeleteIfExists_idempotent {σ : Type} (env : Env σ) (a : Archiver) (w : World σ) :
    (os.IsNotExist (errOf (env.unsafeStat (a.ArchivePath env) w.fs)) = true →
      (a.DeleteIfExists env w).1 = none ∧ (a.DeleteIfExists env w).2.fs = w.fs) ∧
    (env.RemoveUnlinks → env.StatCoherent → (a.DeleteIfExists env w).1 = none →
      os.IsNotExist (errOf (env.unsafeStat (a.ArchivePath env) (a.DeleteIfExists env w).2.fs)) = true ∧
      a.Absent env (a.DeleteIfExists env w).2.fs ∧
      (a.DeleteIfExists env (a.DeleteIfExists env w).2).1 = none ∧
      (a.DeleteIfExists env (a.DeleteIfExists env w).2).2.fs = (a.DeleteIfExists env w).2.fs) := by
  refine ⟨DeleteIfExists_of_absent env a w, ?_⟩
  intro hrm hco hok
  have habs := DeleteIfExists_absent env a w hrm hco hok
  have hst : os.IsNotExist
      (errOf (env.unsafeStat (a.ArchivePath env) (a.DeleteIfExists env w).2.fs)) = true := by
    rw [hco]; exact habs
  exact ⟨hst, habs, DeleteIfExists_of_absent env a _ hst⟩

/-- C4, an instance: deleting the archive of `sim.archived`, twice. -/
theorem DeleteIfExists_idempotent_witness :
    (sim.archiver.DeleteIfExists (sim.env "/archives") ⟨sim.archived, []⟩).1 = none ∧
    (sim.archiver.DeleteIfExists (sim.env "/archives") ⟨sim.archived, []⟩).2.fs = sim.fresh ∧
    (sim.archiver.DeleteIfExists (sim.env "/archives")
      (sim.archiver.DeleteIfExists (sim.env "/archives") ⟨sim.archived, []⟩).2).1 = none ∧
    (sim.archiver.DeleteIfExists (sim.env "/archives")
      (sim.archiver.DeleteIfExists (sim.env "/archives") ⟨sim.archived, []⟩).2).2.fs
      = (sim.archiver.DeleteIfExists (sim.env "/archives") ⟨sim.archived, []⟩).2.fs :=
  ⟨by decide, by decide,
   ((DeleteIfExists_idempotent (sim.env "/archives") sim.archiver ⟨sim.archived, []⟩).2
      (sim.env_RemoveUnlinks _) (sim.env_StatCoherent _) (by decide)).2.2⟩

/-- `Archive()` returns no error only when the compression did. -/
theorem Archive_ok_compressed {σ : Type} (env : Env σ) (a : Archiver) (w : World σ)
    (hok : (a.Archive env w).1 = none) :
    ∃ files s, (env.TarGzArchive files (a.ArchivePath env) s).1 = none ∧
      (a.Archive env w).2.fs = (env.TarGzArchive files (a.ArchivePath env) s).2 := by
  simp only [Archiver.Archive] at hok ⊢
  cases hl : env.ReadDir a.Server.Filesystem.Path w.fs with
  | error err => rw [hl] at hok; simp at hok
  | ok children =>
    rw [hl] at hok
    simp only at hok ⊢
    generalize Archiver.archiveFiles env a.Server.Filesystem.Path children []
      (w.record (.ReadDir a.Server.Filesystem.Path)) = r at hok ⊢
    obtain ⟨res, w1⟩ := r
    cases res with
    | error err => simp at hok
    | ok files =>
      simp only [Archiver.Stat, World.record, World.Remove, World.TarGzArchive] at hok ⊢
      cases hs : env.unsafeStat (a.ArchivePath env) w1.fs with
      | error err =>
        rw [hs] at hok
        simp only at hok ⊢
        by_cases hne : os.IsNotExist (some err) = true
        · simp only [hne, Bool.not_true, Bool.false_eq_true, if_false] at hok ⊢
          exact ⟨files, _, hok, rfl⟩
        · simp [hne] at hok
      | ok st =>
        rw [hs] at hok
        simp only at hok ⊢
        cases hr : (env.Remove (a.ArchivePath env) w1.fs).1 with
        | some e => simp [hr] at hok
        | none =>
          simp only [hr] at hok ⊢
          exact ⟨files, _, hok, rfl⟩

/-- C7 (as stated, refuted): in `sim.hidden` no file and no directory exists
at the archive path, and the path may not be accessed: the stat fails with
"permission denied" and `Exists()` is true although the archive is absent. -/
theorem Exists_true_without_archive :
    sim.archiver.ArchivePath (sim.env "/archives") = "/archives/a.tar.gz" ∧
    sim.hidden.files.lookup "/archives/a.tar.gz" = none ∧
    sim.hidden.dirs.lookup "/archives/a.tar.gz" = none ∧
    errOf ((sim.env "/archives").Stat "/archives/a.tar.gz" sim.hidden)
      = some (.PathError "stat" "/archives/a.tar.gz" (.Errno .EACCES)) ∧
    (sim.archiver.Exists (sim.env "/archives") ⟨sim.hidden, []⟩).1 = true := by
  decide

/-- C7 (amended): the existence of the archive follows the state machine as
far as the stat can see it. Where the compression creates its destination
whenever it returns no error, `Exists()` is true after an `Archive()` that
returned no error. Where a successful `os.Remove` removes the file and the
metadata provider and `os.Stat` agree on "not found", `Exists()` is false
after a `DeleteIfExists()` that returned no error. `Exists()` is false exactly
in the states where `os.Stat` of the archive path reports "not found": while
the archive is missing and the stat fails with another error, `Exists()` is
true. -/
theorem Exists_follows_lifecycle {σ : Type} (env : Env σ) (a : Archiver) (w : World σ) :
    (env.CompressionCreates → (a.Archive env w).1 = none →
      (a.Exists env (a.Archive env w).2).1 = true) ∧
    (env.RemoveUnlinks → env.StatCoherent → (a.DeleteIfExists env w).1 = none →
      (a.Exists env (a.DeleteIfExists env w).2).1 = false) ∧
    ((a.Exists env w).1 = false ↔
      os.IsNotExist (errOf (env.Stat (a.ArchivePath env) w.fs)) = true) ∧
    (∀ err, env.Stat (a.ArchivePath env) w.fs = .error err →
      os.IsNotExist (some err) = false → (a.Exists env w).1 = true) := by
  refine ⟨?_, ?_, ?_, ?_⟩
  · intro hcomp hok
    obtain ⟨files, s, h1, h2⟩ := Archive_ok_compressed env a w hok
    rw [Exists_eq, h2]
    simp [hcomp files _ s h1]
  · intro hrm hco hok
    have habs := DeleteIfExists_absent env a w hrm hco hok
    rw [Exists_eq]
    simp only [Archiver.Absent] at habs
    simp [habs]
  · rw [Exists_eq]
    simp
  · intro err h1 h2
    rw [Exists_eq]
    simp [h1, errOf, h2]

/-- C7, instances: archiving `sim.fresh`, then deleting the archive; and
`sim.hidden`, where the archive is missing and the stat is denied. -/
theorem Exists_follows_lifecycle_witness :
    (sim.archiver.Exists (sim.env "/archives") ⟨sim.fresh, []⟩).1 = false ∧
    (sim.archiver.Archive (sim.env "/archives") ⟨sim.fresh, []⟩).1 = none ∧
    (sim.archiver.Exists (sim.env "/archives")
      (sim.archiver.Archive (sim.env "/archives") ⟨sim.fresh, []⟩).2).1 = true ∧
    (sim.archiver.DeleteIfExists (sim.env "/archives")
      (sim.archiver.Archive (sim.env "/archives") ⟨sim.fresh, []⟩).2).1 = none ∧
    (sim.archiver.Exists (sim.env "/archives")
      (sim.archiver.DeleteIfExists (sim.env "/archives")
        (sim.archiver.Archive (sim.env "/archives") ⟨sim.fresh, []⟩).2).2).1 = false ∧
    (sim.archiver.Exists (sim.env "/archives") ⟨sim.hidden, []⟩).1 = true :=
  ⟨(Exists_follows_lifecycle (sim.env "/archives") sim.archiver ⟨sim.fresh, []⟩).2.2.1.2 rfl,
   by decide,
   (Exists_follows_lifecycle (sim.env "/archives") sim.archiver ⟨sim.fresh, []⟩).1
      (sim.env_CompressionCreates _) (by decide),
   by decide,
   (Exists_follows_lifecycle (sim.env "/archives") sim.archiver
      (sim.archiver.Archive (sim.env "/archives") ⟨sim.fresh, []⟩).2).2.1
      (sim.env_RemoveUnlinks _) (sim.env_StatCoherent _) (by decide),
   (Exists_follows_lifecycle (sim.env "/archives") sim.archiver ⟨sim.hidden, []⟩).2.2.2
      _ rfl rfl⟩

/-- C8: when the listing of the data directory succeeds with the entries
`children`, `SafeJoin` accepts every entry, giving `paths` (one path per
entry, in listing order), the stat of the archive succeeds or reports "not
found", and the removal of a present archive succeeds, then `Archive()`
returns what the compression capability returns for `paths` and
`ArchivePath()`, run once, on the filesystem from which `os.Remove` has taken
the old archive (on the filesystem as it was when the stat reported "not
found"). Where a successful `os.Remove` removes the file and the metadata
provider agrees with `os.Stat`, the archive is absent in that filesystem. -/
theorem Archive_compresses_listing {σ : Type} (env : Env σ) (a : Archiver) (w : World σ)
    (children : List os.FileInfo) (paths : List String)
    (hlist : env.ReadDir a.Server.Filesystem.Path w.fs = .ok children)
    (hjoin : List.Forall₂ (fun c p => env.SafeJoin a.Server.Filesystem.Path c w.fs = .ok p)
      children paths)
    (hstat : ∀ err, env.unsafeStat (a.ArchivePath env) w.fs = .error err →
      os.IsNotExist (some err) = true)
    (hremove : errOf (env.unsafeStat (a.ArchivePath env) w.fs) = none →
      (env.Remove (a.ArchivePath env) w.fs).1 = none) :
    paths.length = children.length ∧
    ∃ (s : σ) (removal : List Call),
      (s, removal) =
        (match env.unsafeStat (a.ArchivePath env) w.fs with
         | .ok _ => ((env.Remove (a.ArchivePath env) w.fs).2, [Call.Remove (a.ArchivePath env)])
         | .error _ => (w.fs, [])) ∧
      a.Archive env w =
        ((env.TarGzArchive paths (a.ArchivePath env) s).1,
         { fs := (env.TarGzArchive paths (a.ArchivePath env) s).2,
           calls := w.calls ++ Call.ReadDir a.Server.Filesystem.Path ::
             children.map (Call.SafeJoin a.Server.Filesystem.Path) ++
             [.unsafeStat (a.ArchivePath env)] ++ removal ++
             [.TarGzArchive paths (a.ArchivePath env)] }) ∧
      (env.RemoveUnlinks → env.StatCoherent → a.Absent env s) ∧
      (env.CompressionCreates → (a.Archive env w).1 = none →
        (a.Exists env (a.Archive env w).2).1 = true) := by
  refine ⟨hjoin.length_eq.symm, ?_⟩
  have hafter : env.CompressionCreates → (a.Archive env w).1 = none →
      (a.Exists env (a.Archive env w).2).1 = true := by
    intro hcomp hok
    obtain ⟨files, s, h1, h2⟩ := Archive_ok_compressed env a w hok
    rw [Exists_eq, h2]
    simp [hcomp files _ s h1]
  rw [Archive_joined env a w children paths hlist hjoin] at hafter ⊢
  cases hs : env.unsafeStat (a.ArchivePath env) w.fs with
  | error err =>
    have hne := hstat err hs
    rw [hs] at hafter
    refine ⟨w.fs, [], rfl, ?_, ?_, hafter⟩
    · simp [hne, Archiver.prelude]
    · intro _ hco
      have h := hco (a.ArchivePath env) w.fs
      rw [hs] at h
      show os.IsNotExist (errOf (env.Stat (a.ArchivePath env) w.fs)) = true
      rw [← h]; exact hne
  | ok st =>
    have hr := hremove (by rw [hs]; rfl)
    rw [hs] at hafter
    refine ⟨(env.Remove (a.ArchivePath env) w.fs).2, [Call.Remove (a.ArchivePath env)], rfl,
      ?_, ?_, hafter⟩
    · simp [hr, Archiver.prelude]
    · intro hrm _
      exact hrm _ _ hr

/-- C8, an instance: archiving `sim.archived` replaces the archive of the
earlier run. -/
theorem Archive_compresses_listing_witness :
    ∃ (s : sim.FS) (removal : List Call),
      (s, removal) = (sim.fresh, [Call.Remove "/archives/a.tar.gz"]) ∧
      sim.archiver.Archive (sim.env "/archives") ⟨sim.archived, []⟩ =
        (none,
         { fs := { sim.fresh with
                   files := ("/archives/a.tar.gz", [104, 101, 108, 108, 111, 119, 111, 114, 108, 100])
                     :: sim.fresh.files },
           calls := [Call.ReadDir "/srv/data",
             .SafeJoin "/srv/data" { Name := "a.txt", Size := 5, IsDir := false, IsSymlink := false },
             .SafeJoin "/srv/data" { Name := "b.txt", Size := 5, IsDir := false, IsSymlink := false },
             .unsafeStat "/archives/a.tar.gz"] ++ removal ++
             [.TarGzArchive ["/srv/data/a.txt", "/srv/data/b.txt"] "/archives/a.tar.gz"] }) ∧
      sim.archiver.Absent (sim.env "/archives") s := by
  obtain ⟨-, s, removal, h1, h2, h3, -⟩ :=
    Archive_compresses_listing (sim.env "/archives") sim.archiver ⟨sim.archived, []⟩
      [{ Name := "a.txt", Size := 5, IsDir := false, IsSymlink := false },
       { Name := "b.txt", Size := 5, IsDir := false, IsSymlink := false }]
      ["/srv/data/a.txt", "/srv/data/b.txt"] rfl
      (List.Forall₂.cons rfl (List.Forall₂.cons rfl List.Forall₂.nil))
      (fun err h => by cases h) (fun _ => rfl)
  have h1' : (s, removal) = (sim.fresh, [Call.Remove "/archives/a.tar.gz"]) := h1
  refine ⟨s, removal, h1', ?_, h3 (sim.env_RemoveUnlinks _) (sim.env_StatCoherent _)⟩
  rw [h2]
  cases h1'
  rfl

/-- C9: `Archive()` stops at the first step that fails and does not call the
compression capability after a failure. A listing error is returned with
nothing but the listing called. Once every entry is joined: a stat error
other than "not found" is returned, with no removal and no compression; on
"not found" the compression runs on the unchanged filesystem with no removal
before it; and when the archive is present and its removal fails, the removal
error is returned and the compression is not called. -/
theorem Archive_stops_at_first_failure {σ : Type} (env : Env σ) (a : Archiver) (w : World σ) :
    (∀ err, env.ReadDir a.Server.Filesystem.Path w.fs = .error err →
      a.Archive env w = (some err, ⟨w.fs, w.calls ++ [.ReadDir a.Server.Filesystem.Path]⟩)) ∧
    (∀ children paths, env.ReadDir a.Server.Filesystem.Path w.fs = .ok children →
      List.Forall₂ (fun c p => env.SafeJoin a.Server.Filesystem.Path c w.fs = .ok p)
        children paths →
      (∀ err, env.unsafeStat (a.ArchivePath env) w.fs = .error err →
        os.IsNotExist (some err) = false →
        a.Archive env w =
          (some err,
           ⟨w.fs, w.calls ++ Call.ReadDir a.Server.Filesystem.Path ::
             children.map (Call.SafeJoin a.Server.Filesystem.Path) ++
             [.unsafeStat (a.ArchivePath env)]⟩)) ∧
      (∀ err, env.unsafeStat (a.ArchivePath env) w.fs = .error err →
        os.IsNotExist (some err) = true →
        a.Archive env w =
          ((env.TarGzArchive paths (a.ArchivePath env) w.fs).1,
           ⟨(env.TarGzArchive paths (a.ArchivePath env) w.fs).2,
            w.calls ++ Call.ReadDir a.Server.Filesystem.Path ::
              children.map (Call.SafeJoin a.Server.Filesystem.Path) ++
              [.unsafeStat (a.ArchivePath env), .TarGzArchive paths (a.ArchivePath env)]⟩)) ∧
      (∀ st err, env.unsafeStat (a.ArchivePath env) w.fs = .ok st →
        (env.Remove (a.ArchivePath env) w.fs).1 = some err →
        a.Archive env w =
          (some err,
           ⟨(env.Remove (a.ArchivePath env) w.fs).2,
            w.calls ++ Call.ReadDir a.Server.Filesystem.Path ::
              children.map (Call.SafeJoin a.Server.Filesystem.Path) ++
              [.unsafeStat (a.ArchivePath env), .Remove (a.ArchivePath env)]⟩))) := by
  refine ⟨?_, ?_⟩
  · intro err h
    simp [Archiver.Archive, h, World.record]
  · intro children paths hlist hjoin
    rw [Archive_joined env a w children paths hlist hjoin]
    refine ⟨?_, ?_, ?_⟩
    · intro err hs hne; simp [hs, hne, Archiver.prelude]
    · intro err hs hne; simp [hs, hne, Archiver.prelude]
    · intro st err hs hr; simp [hs, hr, Archiver.prelude]

/-- C9, instances: the data directory cannot be read (`sim.unreadable`), the
archive cannot be accessed (`sim.locked`), there is no archive (`sim.fresh`),
and a non-empty directory sits at the archive path (`sim.blocked`). -/
theorem Archive_stops_at_first_failure_witness :
    sim.archiver.Archive (sim.env "/archives") ⟨sim.unreadable, []⟩ =
      (some (.PathError "open" "/srv/data" (.Errno .EACCES)),
       ⟨sim.unreadable, [.ReadDir "/srv/data"]⟩) ∧
    sim.archiver.Archive (sim.env "/archives") ⟨sim.locked, []⟩ =
      (some (.PathError "stat" "/archives/a.tar.gz" (.Errno .EACCES)),
       ⟨sim.locked, [.ReadDir "/srv/data",
          .SafeJoin "/srv/data" { Name := "a.txt", Size := 5, IsDir := false, IsSymlink := false },
          .SafeJoin "/srv/data" { Name := "b.txt", Size := 5, IsDir := false, IsSymlink := false },
          .unsafeStat "/archives/a.tar.gz"]⟩) ∧
    (sim.archiver.Archive (sim.env "/archives") ⟨sim.fresh, []⟩).1 = none ∧
    (sim.archiver.Archive (sim.env "/archives") ⟨sim.fresh, []⟩).2.calls =
      [.ReadDir "/srv/data",
       .SafeJoin "/srv/data" { Name := "a.txt", Size := 5, IsDir := false, IsSymlink := false },
       .SafeJoin "/srv/data" { Name := "b.txt", Size := 5, IsDir := false, IsSymlink := false },
       .unsafeStat "/archives/a.tar.gz",
       .TarGzArchive ["/srv/data/a.txt", "/srv/data/b.txt"] "/archives/a.tar.gz"] ∧
    sim.archiver.Archive (sim.env "/archives") ⟨sim.blocked, []⟩ =
      (some (.PathError "remove" "/archives/a.tar.gz" (.Errno .ENOTEMPTY)),
       ⟨sim.blocked, [.ReadDir "/srv/data",
          .SafeJoin "/srv/data" { Name := "a.txt", Size := 5, IsDir := false, IsSymlink := false },
          .SafeJoin "/srv/data" { Name := "b.txt", Size := 5, IsDir := false, IsSymlink := false },
          .unsafeStat "/archives/a.tar.gz", .Remove "/archives/a.tar.gz"]⟩) :=
  ⟨(Archive_stops_at_first_failure (sim.env "/archives") sim.archiver ⟨sim.unreadable, []⟩).1
      _ rfl,
   ((Archive_stops_at_first_failure (sim.env "/archives") sim.archiver ⟨sim.locked, []⟩).2
      _ ["/srv/data/a.txt", "/srv/data/b.txt"] rfl
      (List.Forall₂.cons rfl (List.Forall₂.cons rfl List.Forall₂.nil))).1 _ rfl rfl,
   by decide, by decide,
   ((Archive_stops_at_first_failure (sim.env "/archives") sim.archiver ⟨sim.blocked, []⟩).2
      _ ["/srv/data/a.txt", "/srv/data/b.txt"] rfl
      (List.Forall₂.cons rfl (List.Forall₂.cons rfl List.Forall₂.nil))).2.2 _ _ rfl rfl⟩
